import Mathlib

/-!
Verification of the procedural word generator of the ConlangDictionary
repository (module src/simulated_kozuka_logic.py).

Embedding conventions:
- Python strings are modelled as List Char.
- The process-wide random source is modelled as a stream g : Nat -> Nat
  together with a draw counter k : Nat; the draw at position k is g k.
  The call random.choice(pool) is modelled as indexing the pool at
  g k % pool.length, and random.random() < 0.5 as g k % 2 = 0; both are
  surjective onto the outcomes the Python code can see, and every theorem
  quantifies over all streams g.
- Python exceptions are modelled by Except GenErr: GenErr.emptyPool is the
  IndexError raised by random.choice([]) on an empty selection pool, and
  GenErr.fuel models exhaustion of the recursion budget (Python's
  RecursionError on self-referential definitions).  The mutual recursion of
  evaluate_pattern and process_sequence is bounded by an explicit fuel
  parameter that decreases at each evaluate_pattern call.
- Scanning loops over a string are written with an explicit countdown
  parameter (rem), so that all recursions are structural and every
  definition evaluates by kernel reduction.
-/

namespace Kozuka

/-- The closing bracket matching an opening bracket; the dict literal
at the top of the Python find_matching_bracket. -/
def closeFor (c : Char) : Option Char :=
  if c = '(' then some ')'
  else if c = '[' then some ']'
  else if c = '{' then some '}'
  else none

/-- The scanning loop of find_matching_bracket: from index i with current
nesting depth, looking for the same-type closing bracket cc of oc.  rem is
a countdown of the remaining positions (the Python for-loop runs over
range(start_index + 1, len(s))); callers pass s.length - (start_index + 1),
so the scan ends exactly where the Python loop does. -/
def fmbGo (s : List Char) (oc cc : Char) : Nat → Nat → Nat → Int
  | 0, _, _ => -1
  | rem + 1, i, depth =>
    match s[i]? with
    | none => -1
    | some c =>
      let d := if c = oc then depth + 1 else if c = cc then depth - 1 else depth
      if d = 0 then (i : Int) else fmbGo s oc cc rem (i + 1) d

/-- find_matching_bracket from the source: index of the matching closing
bracket of the bracket at startIndex, or -1.  (The source indexes
s[start_index] directly and would raise on an out-of-range index; theorems
about this function therefore assume startIndex < s.length.) -/
def find_matching_bracket (s : List Char) (startIndex : Nat) : Int :=
  match s[startIndex]? with
  | none => -1
  | some oc =>
    match closeFor oc with
    | none => -1
    | some cc => fmbGo s oc cc (s.length - (startIndex + 1)) (startIndex + 1) 1

/-- The loop of split_by_top_level_slash: i is the scan position, depth the
bracket depth, start the start of the current part; rem counts down the
remaining positions.  The Python code appends each finished slice
s[current_part_start:i] to a parts list; consing the slices in scan order
produces the same list. -/
def splitGo (s : List Char) : Nat → Nat → Nat → Nat → List (List Char)
  | 0, _, _, start => [s.drop start]
  | rem + 1, i, depth, start =>
    match s[i]? with
    | none => [s.drop start]
    | some c =>
      if c = '(' ∨ c = '[' then splitGo s rem (i + 1) (depth + 1) start
      else if c = ')' ∨ c = ']' then
        splitGo s rem (i + 1) (if 0 < depth then depth - 1 else depth) start
      else if c = '/' ∧ depth = 0 then
        ((s.drop start).take (i - start)) :: splitGo s rem (i + 1) depth (i + 1)
      else splitGo s rem (i + 1) depth start

/-- split_by_top_level_slash from the source. -/
def split_by_top_level_slash (s : List Char) : List (List Char) :=
  splitGo s s.length 0 0 0

/-- Python str.rfind for a single character: index of its last occurrence. -/
def pyRFind (c : Char) : List Char → Option Nat
  | [] => none
  | a :: rest =>
    match pyRFind c rest with
    | some i => some (i + 1)
    | none => if a = c then some 0 else none

/-- The code points Python int() strips as whitespace around a numeral
(CPython 3.11: the ASCII whitespace characters together with the Unicode
space separators, NEL, the line and paragraph separators, narrow no-break
space, medium mathematical space and ideographic space). -/
def pyWhitespace : List Nat :=
  [9, 10, 11, 12, 13, 32, 133, 160, 5760, 8192, 8193, 8194, 8195, 8196,
   8197, 8198, 8199, 8200, 8201, 8202, 8232, 8233, 8239, 8287, 12288]

/-- Whitespace accepted by Python int() around a numeral. -/
def isSpaceChar (c : Char) : Bool := pyWhitespace.contains c.toNat

/-- The whitespace stripping performed by Python int(). -/
def pyStrip (s : List Char) : List Char :=
  ((s.dropWhile isSpaceChar).reverse.dropWhile isSpaceChar).reverse

/-- First code points of the decimal-digit blocks (Unicode category Nd)
recognised by Python int() (CPython 3.11's Unicode tables).  Every block
is ten consecutive code points carrying the values 0 through 9, so a
character is a decimal digit exactly when it lies in one of these
ten-point ranges. -/
def pyDigitStarts : List Nat :=
  [48, 1632, 1776, 1984, 2406, 2534, 2662, 2790, 2918, 3046, 3174, 3302,
   3430, 3558, 3664, 3792, 3872, 4160, 4240, 6112, 6160, 6470, 6608, 6784,
   6800, 6992, 7088, 7232, 7248, 42528, 43216, 43264, 43472, 43504, 43600,
   44016, 65296, 66720, 68912, 69734, 69872, 69942, 70096, 70384, 70736,
   70864, 71248, 71360, 71472, 71904, 72016, 72784, 73040, 73120, 92768,
   92864, 93008, 120782, 120792, 120802, 120812, 120822, 123200, 123632,
   125264, 130032]

/-- The decimal value of a character under Python int(): defined exactly
when the character lies in one of the Unicode decimal-digit blocks. -/
def pyDigitVal (c : Char) : Option Nat :=
  match pyDigitStarts.find? (fun s => decide (s ≤ c.toNat ∧ c.toNat < s + 10)) with
  | some s => some (c.toNat - s)
  | none => none

/-- Digit accumulation for Python int(): decimal digits of any script,
a single underscore allowed between two digits. -/
def pyDigitsGo (acc : Nat) : List Char → Option Nat
  | [] => some acc
  | '_' :: c :: rest =>
    match pyDigitVal c with
    | some v => pyDigitsGo (acc * 10 + v) rest
    | none => none
  | '_' :: [] => none
  | c :: rest =>
    match pyDigitVal c with
    | some v => pyDigitsGo (acc * 10 + v) rest
    | none => none

/-- Nonempty digit string (with underscore separators) for Python int(). -/
def pyDigits : List Char → Option Nat
  | [] => none
  | c :: rest =>
    match pyDigitVal c with
    | some v => pyDigitsGo v rest
    | none => none

/-- Python int(...) applied to a string: optional surrounding whitespace,
an optional single ASCII sign, then decimal digits of any script (each
contributing its decimal value) with single underscores allowed between
digits.  In particular int accepts signed numerals, so the result may be
negative. -/
def pyIntOfString (s : List Char) : Option Int :=
  match pyStrip s with
  | '+' :: rest => (pyDigits rest).map (fun n => (n : Int))
  | '-' :: rest => (pyDigits rest).map (fun n => -(n : Int))
  | t => (pyDigits t).map (fun n => (n : Int))

/-- parse_weight from the source: find the last asterisk; if the suffix
after it is nonempty and parses as a Python int, return (prefix, weight),
otherwise (the whole string, 1). -/
def parse_weight (option_string : List Char) : List Char × Int :=
  match pyRFind '*' option_string with
  | none => (option_string, 1)
  | some lastAsterisk =>
    let weightStr := option_string.drop (lastAsterisk + 1)
    if weightStr = [] then (option_string, 1)
    else
      match pyIntOfString weightStr with
      | some w => (option_string.take lastAsterisk, w)
      | none => (option_string, 1)

/-- The definition table: an insertion-ordered dict from names to pattern
strings. -/
abbrev Defs := List (List Char × List Char)

/-- definitions[ref_name] together with the ref_name in definitions test. -/
def lookupDef (definitions : Defs) (name : List Char) : Option (List Char) :=
  (definitions.find? (fun p => p.1 == name)).map (fun p => p.2)

/-- One key/value insertion with Python dict.update semantics: an existing
key keeps its position and gets the new value, a new key is appended. -/
def dictInsert (d : Defs) (kv : List Char × List Char) : Defs :=
  if d.any (fun p => p.1 == kv.1) then
    d.map (fun p => if p.1 == kv.1 then (p.1, kv.2) else p)
  else d ++ [kv]

/-- The merge loop of generate_words: definitions.update(d) over the list
of single-entry dicts, later entries overwriting earlier ones. -/
def mergeDefs (definitionsList : List Defs) : Defs :=
  definitionsList.foldl (fun acc d => d.foldl dictInsert acc) []

/-- Exceptional outcomes of the evaluator: emptyPool is the IndexError of
random.choice on an empty list; fuel models the bounded recursion budget
(Python's RecursionError). -/
inductive GenErr : Type where
  | fuel : GenErr
  | emptyPool : GenErr
  deriving DecidableEq

/-- The slice s[a:b] of Python. -/
def listSlice (s : List Char) (a b : Nat) : List Char :=
  (s.drop a).take (b - a)

/-- The while-loop body of process_sequence.  ev is the evaluator used for
nested groups and references (evaluate_pattern of the enclosing call, at
its fuel).  i is the scan index, k the random-draw counter.  rem is a
countdown bounding the number of scan steps; callers pass
pattern.length + 1, which the scan never exhausts because every step
advances the index by at least one. -/
def seqGo (ev : List Char → Nat → Except GenErr (List Char × Nat))
    (definitions : Defs) (g : Nat → Nat) (pattern : List Char) :
    Nat → Nat → Nat → Except GenErr (List Char × Nat)
  | 0, _, _ => .error .fuel
  | rem + 1, i, k =>
    match pattern[i]? with
    | none => .ok ([], k)
    | some c =>
      if c = '{' then
        let j := find_matching_bracket pattern i
        if j = -1 then
          match seqGo ev definitions g pattern rem (i + 1) k with
          | .error e => .error e
          | .ok (r, k1) => .ok (c :: r, k1)
        else
          let refName := listSlice pattern (i + 1) j.toNat
          match lookupDef definitions refName with
          | some defPattern =>
            match ev defPattern k with
            | .error e => .error e
            | .ok (v, k1) =>
              match seqGo ev definitions g pattern rem (j.toNat + 1) k1 with
              | .error e => .error e
              | .ok (r, k2) => .ok (v ++ r, k2)
          | none => seqGo ev definitions g pattern rem (j.toNat + 1) k
      else if c = '[' then
        let j := find_matching_bracket pattern i
        if j = -1 then
          match seqGo ev definitions g pattern rem (i + 1) k with
          | .error e => .error e
          | .ok (r, k1) => .ok (c :: r, k1)
        else
          match ev (listSlice pattern (i + 1) j.toNat) k with
          | .error e => .error e
          | .ok (v, k1) =>
            match seqGo ev definitions g pattern rem (j.toNat + 1) k1 with
            | .error e => .error e
            | .ok (r, k2) => .ok (v ++ r, k2)
      else if c = '(' then
        let j := find_matching_bracket pattern i
        if j = -1 then
          match seqGo ev definitions g pattern rem (i + 1) k with
          | .error e => .error e
          | .ok (r, k1) => .ok (c :: r, k1)
        else
          if g k % 2 = 0 then
            match ev (listSlice pattern (i + 1) j.toNat) (k + 1) with
            | .error e => .error e
            | .ok (v, k1) =>
              match seqGo ev definitions g pattern rem (j.toNat + 1) k1 with
              | .error e => .error e
              | .ok (r, k2) => .ok (v ++ r, k2)
          else seqGo ev definitions g pattern rem (j.toNat + 1) (k + 1)
      else
        match seqGo ev definitions g pattern rem (i + 1) k with
        | .error e => .error e
        | .ok (r, k1) => .ok (c :: r, k1)

/-- evaluate_pattern from the source: split on top-level slashes, expand
weights into a selection pool, choose one element uniformly, then process
it as a sequence.  Structural in the fuel parameter, which bounds the
recursion depth of nested evaluate_pattern calls. -/
def evaluate_pattern (g : Nat → Nat) (definitions : Defs) :
    Nat → List Char → Nat → Except GenErr (List Char × Nat)
  | 0, _, _ => .error .fuel
  | fuel + 1, pattern, k =>
    let options := split_by_top_level_slash pattern
    if options = [] then .ok ([], k)
    else
      let weightedList := options.foldl
        (fun acc opt =>
          let bw := parse_weight opt
          acc ++ List.replicate bw.2.toNat bw.1) []
      if weightedList = [] then .error .emptyPool
      else
        let chosen := weightedList.getD (g k % weightedList.length) []
        seqGo (fun p k2 => evaluate_pattern g definitions fuel p k2) definitions g
          chosen (chosen.length + 1) 0 (k + 1)

/-- process_sequence from the source, as an entry point: scan the pattern
from index 0. -/
def process_sequence (g : Nat → Nat) (definitions : Defs) (fuel : Nat)
    (pattern : List Char) (k : Nat) : Except GenErr (List Char × Nat) :=
  seqGo (fun p k2 => evaluate_pattern g definitions fuel p k2) definitions g
    pattern (pattern.length + 1) 0 k

/-- Python str.split for a one-character separator (no maxsplit): runs of
the separator produce empty segments, and the result is never empty. -/
def pySplit (sep : Char) : List Char → List (List Char)
  | [] => [[]]
  | c :: rest =>
    match pySplit sep rest with
    | [] => [[c]]
    | h :: t => if c = sep then [] :: h :: t else (c :: h) :: t

/-- The base pattern of generate_words: the segment of the main pattern
before the first caret (the whole pattern when no caret occurs). -/
def basePatternOf (mainPattern : List Char) : List Char :=
  if mainPattern.contains '^' then (pySplit '^' mainPattern).headD [] else mainPattern

/-- The filter substrings of generate_words: the segments of the main
pattern after the first caret (empty when no caret occurs). -/
def filtersOf (mainPattern : List Char) : List (List Char) :=
  if mainPattern.contains '^' then (pySplit '^' mainPattern).tail else []

/-- The acceptance step of the generation loop: a candidate word is
appended iff it contains no filter substring and is not already present. -/
def acceptStep (filters : List (List Char)) (acc : List (List Char))
    (word : List Char) : List (List Char) :=
  if (∀ f ∈ filters, ¬ f <:+: word) ∧ word ∉ acc then acc ++ [word] else acc

/-- The while-loop of generate_words.  The Python loop runs while
len(generated_words) < count and attempts < count * 10 + 100, incrementing
attempts each iteration; rem is the countdown bound - attempts. -/
def genLoop (g : Nat → Nat) (fuel : Nat) (definitions : Defs) (base : List Char)
    (filters : List (List Char)) (count : Nat) :
    Nat → List (List Char) → Nat → Except GenErr (List (List Char))
  | 0, acc, _ => .ok acc
  | rem + 1, acc, k =>
    if acc.length < count then
      match evaluate_pattern g definitions fuel base k with
      | .error e => .error e
      | .ok (word, k1) =>
        genLoop g fuel definitions base filters count rem (acceptStep filters acc word) k1
    else .ok acc

/-- generate_words from the source: merge the definition dicts, split the
main pattern into base pattern and filters at carets, and run the bounded
rejection-sampling loop. -/
def generate_words (g : Nat → Nat) (fuel : Nat) (mainPattern : List Char)
    (definitionsList : List Defs) (count : Nat) : Except GenErr (List (List Char)) :=
  genLoop g fuel (mergeDefs definitionsList) (basePatternOf mainPattern)
    (filtersOf mainPattern) count (count * 10 + 100) [] 0

/-- Empty-pool safety of one chosen branch: a deterministic walk of the
process_sequence scan that requires sf (safety of a nested
evaluate_pattern call) on every definition body and group body that the
scan can reach - the body of an optional group is checked regardless of
the coin, so the check covers every sequence of draws.  Exhausting the
budget is safe because the evaluator then fails with the recursion error,
not the empty-pool error. -/
def scanSafe (sf : List Char → Bool) (definitions : Defs) (s : List Char) :
    Nat → Nat → Bool
  | 0, _ => true
  | rem + 1, i =>
    match s[i]? with
    | none => true
    | some c =>
      if c = '{' then
        let j := find_matching_bracket s i
        if j = -1 then scanSafe sf definitions s rem (i + 1)
        else
          match lookupDef definitions (listSlice s (i + 1) j.toNat) with
          | some dp => sf dp && scanSafe sf definitions s rem (j.toNat + 1)
          | none => scanSafe sf definitions s rem (j.toNat + 1)
      else if c = '[' then
        let j := find_matching_bracket s i
        if j = -1 then scanSafe sf definitions s rem (i + 1)
        else
          sf (listSlice s (i + 1) j.toNat) &&
            scanSafe sf definitions s rem (j.toNat + 1)
      else if c = '(' then
        let j := find_matching_bracket s i
        if j = -1 then scanSafe sf definitions s rem (i + 1)
        else
          sf (listSlice s (i + 1) j.toNat) &&
            scanSafe sf definitions s rem (j.toNat + 1)
      else scanSafe sf definitions s rem (i + 1)

/-- Decides that no selection pool reachable from the pattern within the
given recursion budget is empty: the pattern's own weighted pool must be
nonempty and every pool element must scan safely.  This is the exact
obstruction to the empty-pool IndexError: evaluating a safe pattern never
raises it, whatever the random draws.  Unmatched brackets, unknown
reference names and non-numeric weight suffixes are all safe; only a
choice whose branches all carry integer weights at most zero is not. -/
def evalSafe (definitions : Defs) : Nat → List Char → Bool
  | 0, _ => true
  | fuel + 1, pattern =>
    let options := split_by_top_level_slash pattern
    if options = [] then true
    else
      let weightedList := options.foldl
        (fun acc opt =>
          let bw := parse_weight opt
          acc ++ List.replicate bw.2.toNat bw.1) []
      if weightedList = [] then false
      else
        weightedList.all (fun chosen =>
          scanSafe (fun q => evalSafe definitions fuel q) definitions chosen
            (chosen.length + 1) 0)

/-! ### Specification-side reference definitions

These definitions follow the words of the specification (not the code) and
are used to state the claims at arm's length from the implementation. -/

/-- One step of the bracket-depth dynamics named by the splitter claim:
depth increases on an opening paren or square bracket, decreases on a
closing one but never below zero, and ignores every other character. -/
def depthStep (d : Nat) (c : Char) : Nat :=
  if c = '(' ∨ c = '[' then d + 1
  else if c = ')' ∨ c = ']' then (if 0 < d then d - 1 else d)
  else d

/-- The bracket depth just before position i of s, per the claimed
dynamics. -/
def depthAt (s : List Char) (i : Nat) : Nat :=
  (s.take i).foldl depthStep 0

/-- Position i of s holds a slash at bracket depth zero. -/
def isTopSlash (s : List Char) (i : Nat) : Bool :=
  decide (s[i]? = some '/' ∧ depthAt s i = 0)

/-- All positions of s holding a top-level slash, in increasing order. -/
def specCutPoints (s : List Char) : List Nat :=
  (List.range s.length).filter (isTopSlash s)

/-- The segments of s obtained by cutting at the given (increasing)
positions, starting at start: each cut index is removed, everything
between consecutive cuts is kept, and the trailing segment after the last
cut is always present. -/
def specSegments (s : List Char) (cuts : List Nat) (start : Nat) : List (List Char) :=
  match cuts with
  | [] => [s.drop start]
  | c :: rest => ((s.drop start).take (c - start)) :: specSegments s rest (c + 1)

/-- The running same-type depth of the bracket-matching claim: starting
from depth d just before position m, the depth after consuming positions
m..x of s (inclusive), counting only occurrences of oc and cc. -/
def sameDepth (s : List Char) (oc cc : Char) (d : Int) (m x : Nat) : Int :=
  d + ((listSlice s m (x + 1)).count oc : Int) - ((listSlice s m (x + 1)).count cc : Int)

/-- The found-or-sentinel convention of the bracket matcher. -/
def intOfFound : Option Nat → Int
  | some x => (x : Int)
  | none => -1

/-- Reference same-type bracket matcher, from the specification's
algorithm: the first position after i at which the same-type depth
(starting at 1) returns to zero, or -1 if none exists in s. -/
def specSameMatch (s : List Char) (i : Nat) : Int :=
  match s[i]? with
  | none => -1
  | some oc =>
    match closeFor oc with
    | none => -1
    | some cc =>
      intOfFound ((List.range' (i + 1) (s.length - (i + 1))).find?
        (fun m => sameDepth s oc cc 1 (i + 1) m == 0))

/-- Modelled from the spec: the cross-type matcher described by the claim
about find_matching_bracket, which scans for the closing character cc and
"correctly skips over nested same-type or different-type bracket pairs
that appear in between": on any opening bracket it recursively locates
that bracket's own matching closer and resumes scanning after it.  fuel
bounds the recursion; it is immaterial for the concrete counterexample. -/
def specCrossScan (s : List Char) : Nat → Char → Nat → Option Nat
  | 0, _, _ => none
  | fuel + 1, cc, i =>
    match s[i]? with
    | none => none
    | some c =>
      if c = cc then some i
      else
        match closeFor c with
        | some cc2 =>
          match specCrossScan s fuel cc2 (i + 1) with
          | some j => specCrossScan s fuel cc (j + 1)
          | none => none
        | none => specCrossScan s fuel cc (i + 1)

/-- Modelled from the spec: entry point of the cross-type matcher. -/
def specCrossMatch (s : List Char) (i : Nat) : Option Nat :=
  match s[i]? with
  | none => none
  | some oc =>
    match closeFor oc with
    | none => none
    | some cc => specCrossScan s ((s.length + 1) * (s.length + 1)) cc (i + 1)

/-- The six words reachable from pattern {C}{V} with C = p/t/k, V = a/i. -/
def sixWordsCV : List (List Char) :=
  ["pa".toList, "pi".toList, "ta".toList, "ti".toList, "ka".toList, "ki".toList]

/-- The definition list of the {C}{V} example: two single-entry dicts. -/
def cvDefsList : List Defs :=
  [[("C".toList, "p/t/k".toList)], [("V".toList, "a/i".toList)]]

/-- The merged definition table of the {C}{V} example. -/
def cvDefs : Defs :=
  [("C".toList, "p/t/k".toList), ("V".toList, "a/i".toList)]

/-! ### Helper lemmas: parse_weight -/

theorem pyRFind_eq_none {c : Char} : ∀ {l : List Char}, c ∉ l → pyRFind c l = none
  | [], _ => rfl
  | a :: rest, h => by
    have hrest : c ∉ rest := fun hm => h (List.mem_cons_of_mem _ hm)
    have ha : ¬ a = c := fun he => h (he ▸ List.mem_cons_self _ _)
    simp [pyRFind, pyRFind_eq_none hrest, ha]

theorem pyRFind_append_cons {c : Char} {b : List Char} (hb : c ∉ b) :
    ∀ (a : List Char), pyRFind c (a ++ c :: b) = some a.length
  | [] => by simp [pyRFind, pyRFind_eq_none hb]
  | x :: a => by simp [pyRFind, pyRFind_append_cons hb a]

theorem drop_append_cons_length {c : Char} (a b : List Char) :
    (a ++ c :: b).drop (a.length + 1) = b := by
  have h1 : a ++ c :: b = (a ++ [c]) ++ b := by simp
  have h2 : (a ++ [c]).length = a.length + 1 := by simp
  rw [h1, ← h2, List.drop_left]

theorem take_append_cons_length {c : Char} (a b : List Char) :
    (a ++ c :: b).take a.length = a := List.take_left a (c :: b)

theorem pyIntOfString_nil : pyIntOfString [] = none := rfl

theorem parse_weight_of_not_mem {s : List Char} (hs : '*' ∉ s) :
    parse_weight s = (s, 1) := by
  simp [parse_weight, pyRFind_eq_none hs]

/-! ### Step lemmas for the sequence evaluator -/

theorem except_map_error_iff {a b : Type} {x : Except GenErr a} {f : a → b}
    {e : GenErr} : x.map f = .error e ↔ x = .error e := by
  cases x <;> simp [Except.map]

theorem except_map_ok_iff {a b : Type} {x : Except GenErr a} {f : a → b}
    {v : b} : x.map f = .ok v ↔ ∃ u, x = .ok u ∧ f u = v := by
  cases x <;> simp [Except.map]

theorem except_bind_error_iff {a b : Type} {x : Except GenErr a}
    {f : a → Except GenErr b} {e : GenErr} :
    x.bind f = .error e ↔ x = .error e ∨ ∃ u, x = .ok u ∧ f u = .error e := by
  cases x <;> simp [Except.bind]

theorem except_bind_ok_iff {a b : Type} {x : Except GenErr a}
    {f : a → Except GenErr b} {v : b} :
    x.bind f = .ok v ↔ ∃ u, x = .ok u ∧ f u = .ok v := by
  cases x <;> simp [Except.bind]

section SeqSteps

variable {ev : List Char → Nat → Except GenErr (List Char × Nat)}
variable {definitions : Defs} {g : Nat → Nat} {s : List Char}
variable {rem i k : Nat} {c : Char}

theorem seqGo_end (h : s[i]? = none) :
    seqGo ev definitions g s (rem + 1) i k = .ok ([], k) := by
  simp [seqGo, h]

theorem seqGo_literal (h : s[i]? = some c)
    (h1 : ¬ c = '{') (h2 : ¬ c = '[') (h3 : ¬ c = '(') :
    seqGo ev definitions g s (rem + 1) i k =
      (seqGo ev definitions g s rem (i + 1) k).map (fun rk => (c :: rk.1, rk.2)) := by
  simp only [seqGo, h]
  rw [if_neg h1, if_neg h2, if_neg h3]
  cases seqGo ev definitions g s rem (i + 1) k <;> simp [Except.map]

theorem seqGo_unmatched (h : s[i]? = some c)
    (hc : c = '{' ∨ c = '[' ∨ c = '(')
    (hj : find_matching_bracket s i = -1) :
    seqGo ev definitions g s (rem + 1) i k =
      (seqGo ev definitions g s rem (i + 1) k).map (fun rk => (c :: rk.1, rk.2)) := by
  rcases hc with hc | hc | hc <;> subst hc <;>
    simp only [seqGo, h, hj, if_pos, if_neg, reduceIte] <;>
    (cases seqGo ev definitions g s rem (i + 1) k <;> simp [Except.map])

theorem seqGo_ref_some (h : s[i]? = some '{') {j : Int}
    (hj : find_matching_bracket s i = j) (hne : ¬ j = -1)
    {dp : List Char}
    (hl : lookupDef definitions (listSlice s (i + 1) j.toNat) = some dp) :
    seqGo ev definitions g s (rem + 1) i k =
      (ev dp k).bind (fun vk =>
        (seqGo ev definitions g s rem (j.toNat + 1) vk.2).map
          (fun rk => (vk.1 ++ rk.1, rk.2))) := by
  subst hj
  simp only [seqGo, h, if_neg hne, reduceIte, hl]
  cases hx : ev dp k with
  | error e => simp [Except.bind]
  | ok vk =>
    obtain ⟨v, k1⟩ := vk
    simp only [Except.bind]
    cases hy : seqGo ev definitions g s rem ((find_matching_bracket s i).toNat + 1) k1 with
    | error e => simp [Except.map]
    | ok rk => obtain ⟨r, k2⟩ := rk; simp [Except.map]

theorem seqGo_ref_none (h : s[i]? = some '{') {j : Int}
    (hj : find_matching_bracket s i = j) (hne : ¬ j = -1)
    (hl : lookupDef definitions (listSlice s (i + 1) j.toNat) = none) :
    seqGo ev definitions g s (rem + 1) i k =
      seqGo ev definitions g s rem (j.toNat + 1) k := by
  subst hj
  simp [seqGo, h, hne, hl]

theorem seqGo_mandatory (h : s[i]? = some '[') {j : Int}
    (hj : find_matching_bracket s i = j) (hne : ¬ j = -1) :
    seqGo ev definitions g s (rem + 1) i k =
      (ev (listSlice s (i + 1) j.toNat) k).bind (fun vk =>
        (seqGo ev definitions g s rem (j.toNat + 1) vk.2).map
          (fun rk => (vk.1 ++ rk.1, rk.2))) := by
  subst hj
  simp only [seqGo, h, if_neg hne, reduceIte]
  cases hx : ev (listSlice s (i + 1) (find_matching_bracket s i).toNat) k with
  | error e => simp [Except.bind]
  | ok vk =>
    obtain ⟨v, k1⟩ := vk
    simp only [Except.bind]
    cases hy : seqGo ev definitions g s rem ((find_matching_bracket s i).toNat + 1) k1 with
    | error e => simp [Except.map]
    | ok rk => obtain ⟨r, k2⟩ := rk; simp [Except.map]

theorem seqGo_optional_take (h : s[i]? = some '(') {j : Int}
    (hj : find_matching_bracket s i = j) (hne : ¬ j = -1)
    (hcoin : g k % 2 = 0) :
    seqGo ev definitions g s (rem + 1) i k =
      (ev (listSlice s (i + 1) j.toNat) (k + 1)).bind (fun vk =>
        (seqGo ev definitions g s rem (j.toNat + 1) vk.2).map
          (fun rk => (vk.1 ++ rk.1, rk.2))) := by
  subst hj
  simp only [seqGo, h, if_neg hne, reduceIte, hcoin]
  cases hx : ev (listSlice s (i + 1) (find_matching_bracket s i).toNat) (k + 1) with
  | error e => simp [Except.bind]
  | ok vk =>
    obtain ⟨v, k1⟩ := vk
    simp only [Except.bind]
    cases hy : seqGo ev definitions g s rem ((find_matching_bracket s i).toNat + 1) k1 with
    | error e => simp [Except.map]
    | ok rk => obtain ⟨r, k2⟩ := rk; simp [Except.map]

theorem seqGo_optional_skip (h : s[i]? = some '(') {j : Int}
    (hj : find_matching_bracket s i = j) (hne : ¬ j = -1)
    (hcoin : ¬ g k % 2 = 0) :
    seqGo ev definitions g s (rem + 1) i k =
      seqGo ev definitions g s rem (j.toNat + 1) (k + 1) := by
  subst hj
  simp [seqGo, h, hne, hcoin]

end SeqSteps

/-- Unfolding of evaluate_pattern at positive fuel once the split and the
weighted pool are known. -/
theorem evaluate_pattern_step {g : Nat → Nat} {definitions : Defs}
    {fuel k : Nat} {p : List Char} {opts wl : List (List Char)}
    (hsplit : split_by_top_level_slash p = opts) (hne : ¬ opts = [])
    (hw : opts.foldl (fun acc opt =>
      let bw := parse_weight opt
      acc ++ List.replicate bw.2.toNat bw.1) [] = wl) (hwne : ¬ wl = []) :
    evaluate_pattern g definitions (fuel + 1) p k =
      seqGo (fun q k2 => evaluate_pattern g definitions fuel q k2) definitions g
        (wl.getD (g k % wl.length) []) ((wl.getD (g k % wl.length) []).length + 1)
        0 (k + 1) := by
  simp only [evaluate_pattern, hsplit, hw]
  rw [if_neg hne, if_neg hwne]

/-! ### Helper lemmas: membership and the weighted pool -/

theorem mem_of_getElem_opt {l : List Char} {i : Nat} {c : Char}
    (h : l[i]? = some c) : c ∈ l := by
  have h2 := List.getElem?_eq_some.1 h
  obtain ⟨hlt, he⟩ := h2
  exact he ▸ List.getElem_mem hlt

theorem listSlice_subset {s : List Char} {a b : Nat} {x : Char}
    (h : x ∈ listSlice s a b) : x ∈ s :=
  List.mem_of_mem_drop (List.mem_of_mem_take h)

theorem mem_of_mem_splitGo {s : List Char} {x : Char} :
    ∀ (rem : Nat) {i depth start : Nat} {o : List Char},
      o ∈ splitGo s rem i depth start → x ∈ o → x ∈ s
  | 0, _, _, start, o, ho, hx => by
    simp only [splitGo, List.mem_singleton] at ho
    exact List.mem_of_mem_drop (ho ▸ hx)
  | rem + 1, i, depth, start, o, ho, hx => by
    cases hc : s[i]? with
    | none =>
      simp only [splitGo, hc, List.mem_singleton] at ho
      exact List.mem_of_mem_drop (ho ▸ hx)
    | some c =>
      simp only [splitGo, hc] at ho
      by_cases h1 : c = '(' ∨ c = '['
      · rw [if_pos h1] at ho
        exact mem_of_mem_splitGo rem ho hx
      · rw [if_neg h1] at ho
        by_cases h2 : c = ')' ∨ c = ']'
        · rw [if_pos h2] at ho
          exact mem_of_mem_splitGo rem ho hx
        · rw [if_neg h2] at ho
          by_cases h3 : c = '/' ∧ depth = 0
          · rw [if_pos h3] at ho
            rcases List.mem_cons.1 ho with he | ho
            · exact List.mem_of_mem_drop (List.mem_of_mem_take (he ▸ hx))
            · exact mem_of_mem_splitGo rem ho hx
          · rw [if_neg h3] at ho
            exact mem_of_mem_splitGo rem ho hx

theorem mem_of_mem_split {s o : List Char} {x : Char}
    (ho : o ∈ split_by_top_level_slash s) (hx : x ∈ o) : x ∈ s :=
  mem_of_mem_splitGo s.length ho hx

theorem getD_mem_of_lt {l : List (List Char)} {n : Nat} {d : List Char}
    (h : n < l.length) : l.getD n d ∈ l := by
  rw [List.getD_eq_getElem?_getD, List.getElem?_eq_getElem h]
  exact List.getElem_mem h

/-- When every option carries weight one, the selection pool is precisely
the option list. -/
theorem weighted_pool_of_all_one :
    ∀ (opts : List (List Char)) (acc : List (List Char)),
      (∀ o ∈ opts, parse_weight o = (o, 1)) →
      opts.foldl (fun acc opt =>
        let bw := parse_weight opt
        acc ++ List.replicate bw.2.toNat bw.1) acc = acc ++ opts
  | [], acc, _ => by simp
  | o :: opts, acc, h => by
    have ho := h o (List.mem_cons_self _ _)
    have hrest : ∀ q ∈ opts, parse_weight q = (q, 1) :=
      fun q hq => h q (List.mem_cons_of_mem _ hq)
    simp only [List.foldl_cons, ho]
    rw [weighted_pool_of_all_one opts _ hrest]
    simp

theorem lookupDef_mem {definitions : Defs} {name dp : List Char}
    (h : lookupDef definitions name = some dp) :
    ∃ p ∈ definitions, p.2 = dp := by
  simp only [lookupDef, Option.map_eq_some'] at h
  obtain ⟨p, hfind, hp⟩ := h
  exact ⟨p, List.mem_of_find?_eq_some hfind, hp⟩

/-! ### Helper lemmas: asterisk-free patterns never hit the empty pool -/

theorem seqGo_error_fuel
    {ev : List Char → Nat → Except GenErr (List Char × Nat)} {definitions : Defs}
    {g : Nat → Nat} {s : List Char}
    (hev : ∀ p k e, '*' ∉ p → ev p k = .error e → e = .fuel)
    (hdefs : ∀ kv ∈ definitions, '*' ∉ kv.2)
    (hs : '*' ∉ s) :
    ∀ rem i k e, seqGo ev definitions g s rem i k = .error e → e = .fuel := by
  intro rem
  induction rem with
  | zero =>
    intro i k e h
    simp only [seqGo] at h
    injection h with h
    exact h.symm
  | succ rem IH =>
    intro i k e h
    have hslice : ∀ a b, '*' ∉ listSlice s a b :=
      fun a b hmem => hs (listSlice_subset hmem)
    cases hc : s[i]? with
    | none => rw [seqGo_end hc] at h; exact absurd h (by simp)
    | some c =>
      by_cases h1 : c = '{'
      · subst h1
        by_cases hj : find_matching_bracket s i = -1
        · rw [seqGo_unmatched hc (Or.inl rfl) hj] at h
          exact IH _ _ _ (except_map_error_iff.1 h)
        · cases hl : lookupDef definitions
              (listSlice s (i + 1) (find_matching_bracket s i).toNat) with
          | none => rw [seqGo_ref_none hc rfl hj hl] at h; exact IH _ _ _ h
          | some dp =>
            have hdp : '*' ∉ dp := by
              obtain ⟨p, hpmem, hp2⟩ := lookupDef_mem hl
              exact hp2 ▸ hdefs p hpmem
            rw [seqGo_ref_some hc rfl hj hl] at h
            rcases except_bind_error_iff.1 h with he | ⟨u, _, hu⟩
            · exact hev _ _ _ hdp he
            · exact IH _ _ _ (except_map_error_iff.1 hu)
      · by_cases h2 : c = '['
        · subst h2
          by_cases hj : find_matching_bracket s i = -1
          · rw [seqGo_unmatched hc (Or.inr (Or.inl rfl)) hj] at h
            exact IH _ _ _ (except_map_error_iff.1 h)
          · rw [seqGo_mandatory hc rfl hj] at h
            rcases except_bind_error_iff.1 h with he | ⟨u, _, hu⟩
            · exact hev _ _ _ (hslice _ _) he
            · exact IH _ _ _ (except_map_error_iff.1 hu)
        · by_cases h3 : c = '('
          · subst h3
            by_cases hj : find_matching_bracket s i = -1
            · rw [seqGo_unmatched hc (Or.inr (Or.inr rfl)) hj] at h
              exact IH _ _ _ (except_map_error_iff.1 h)
            · by_cases hcoin : g k % 2 = 0
              · rw [seqGo_optional_take hc rfl hj hcoin] at h
                rcases except_bind_error_iff.1 h with he | ⟨u, _, hu⟩
                · exact hev _ _ _ (hslice _ _) he
                · exact IH _ _ _ (except_map_error_iff.1 hu)
              · rw [seqGo_optional_skip hc rfl hj hcoin] at h
                exact IH _ _ _ h
          · rw [seqGo_literal hc h1 h2 h3] at h
            exact IH _ _ _ (except_map_error_iff.1 h)

theorem evaluate_pattern_error_fuel {g : Nat → Nat} {definitions : Defs}
    (hdefs : ∀ kv ∈ definitions, '*' ∉ kv.2) :
    ∀ (fuel : Nat) {p : List Char} {k : Nat} {e : GenErr}, '*' ∉ p →
      evaluate_pattern g definitions fuel p k = .error e → e = .fuel := by
  intro fuel
  induction fuel with
  | zero =>
    intro p k e _ h
    simp only [evaluate_pattern] at h
    injection h with h
    exact h.symm
  | succ fuel IH =>
    intro p k e hp h
    have hopts : ∀ o ∈ split_by_top_level_slash p, parse_weight o = (o, 1) :=
      fun o ho => parse_weight_of_not_mem (fun hx => hp (mem_of_mem_split ho hx))
    have hw := weighted_pool_of_all_one (split_by_top_level_slash p) [] hopts
    rw [List.nil_append] at hw
    by_cases hne : split_by_top_level_slash p = []
    · simp only [evaluate_pattern, hne, reduceIte] at h
      exact absurd h (by simp)
    · rw [evaluate_pattern_step rfl hne hw hne] at h
      set wl := split_by_top_level_slash p with hwl
      have hlt : g k % wl.length < wl.length :=
        Nat.mod_lt _ (List.length_pos.2 hne)
      have hchosen : wl.getD (g k % wl.length) [] ∈ wl := getD_mem_of_lt hlt
      have hchosenStar : '*' ∉ wl.getD (g k % wl.length) [] :=
        fun hx => hp (mem_of_mem_split hchosen hx)
      exact seqGo_error_fuel (fun q k2 e2 hq => IH hq) hdefs hchosenStar _ _ _ _ h

/-- Evaluating the unmatched-bracket pattern a(b: the bracket is emitted
literally and the only random draw is the branch choice. -/
theorem seqGo_aLb (ev : List Char → Nat → Except GenErr (List Char × Nat))
    (definitions : Defs) (g : Nat → Nat) (k r : Nat) :
    seqGo ev definitions g ("a(b".toList) (r + 4) 0 k = .ok ("a(b".toList, k) := by
  rw [seqGo_literal rfl (by decide) (by decide) (by decide)]
  rw [seqGo_unmatched rfl (Or.inr (Or.inr rfl)) (by decide)]
  rw [seqGo_literal rfl (by decide) (by decide) (by decide)]
  rw [seqGo_end rfl]
  simp [Except.map]

/-! ### Helper lemmas: slash-free splitting and literal sequences -/

theorem splitGo_no_slash {s : List Char} (hs : '/' ∉ s) :
    ∀ (rem : Nat) (i depth start : Nat), splitGo s rem i depth start = [s.drop start]
  | 0, _, _, _ => rfl
  | rem + 1, i, depth, start => by
    cases hc : s[i]? with
    | none => simp [splitGo, hc]
    | some c =>
      have hcs : c ∈ s := mem_of_getElem_opt hc
      have hslash : ¬ c = '/' := fun he => hs (he ▸ hcs)
      simp only [splitGo, hc]
      by_cases h1 : c = '(' ∨ c = '['
      · rw [if_pos h1]
        exact splitGo_no_slash hs rem _ _ _
      · rw [if_neg h1]
        by_cases h2 : c = ')' ∨ c = ']'
        · rw [if_pos h2]
          exact splitGo_no_slash hs rem _ _ _
        · rw [if_neg h2, if_neg (fun hand => hslash hand.1)]
          exact splitGo_no_slash hs rem _ _ _

theorem split_no_slash {s : List Char} (hs : '/' ∉ s) :
    split_by_top_level_slash s = [s] := by
  rw [split_by_top_level_slash, splitGo_no_slash hs]
  simp

theorem seqGo_all_literal {ev : List Char → Nat → Except GenErr (List Char × Nat)}
    {definitions : Defs} {g : Nat → Nat} {s : List Char}
    (hs : ∀ c ∈ s, ¬ c = '{' ∧ ¬ c = '[' ∧ ¬ c = '(') :
    ∀ (rem : Nat) (i k : Nat), s.length - i < rem →
      seqGo ev definitions g s rem i k = .ok (s.drop i, k) := by
  intro rem
  induction rem with
  | zero => intro i k h; exact absurd h (by omega)
  | succ rem IH =>
    intro i k h
    cases hc : s[i]? with
    | none =>
      rw [seqGo_end hc]
      have hlen : s.length ≤ i := by
        by_contra hcon
        push_neg at hcon
        rw [List.getElem?_eq_getElem hcon] at hc
        exact Option.noConfusion hc
      rw [List.drop_eq_nil_of_le hlen]
    | some c =>
      have hcs : c ∈ s := mem_of_getElem_opt hc
      obtain ⟨h1, h2, h3⟩ := hs c hcs
      have hlt : i < s.length := by
        by_contra hcon
        push_neg at hcon
        rw [List.getElem?_eq_none hcon] at hc
        exact Option.noConfusion hc
      rw [seqGo_literal hc h1 h2 h3, IH (i + 1) k (by omega)]
      have hdrop : s.drop i = c :: s.drop (i + 1) := by
        rw [List.drop_eq_getElem_cons hlt]
        rw [List.getElem?_eq_getElem hlt] at hc
        injection hc with hc
        rw [hc]
      rw [hdrop]
      simp [Except.map]

/-! ### Helper lemmas: the splitter against its cut-point specification -/

theorem depthAt_succ {s : List Char} {i : Nat} {c : Char} (hc : s[i]? = some c) :
    depthAt s (i + 1) = depthStep (depthAt s i) c := by
  rw [depthAt, depthAt, List.take_succ, hc]
  simp [List.foldl_append]

theorem isTopSlash_false_of_ne_slash {s : List Char} {i : Nat} {c : Char}
    (hc : s[i]? = some c) (h : ¬ c = '/') : isTopSlash s i = false := by
  simp [isTopSlash, hc, h]

theorem isTopSlash_false_of_depth {s : List Char} {i : Nat}
    (h : ¬ depthAt s i = 0) : isTopSlash s i = false := by
  simp [isTopSlash, h]

theorem isTopSlash_true_iff {s : List Char} {i : Nat} :
    isTopSlash s i = true ↔ (s[i]? = some '/' ∧ depthAt s i = 0) := by
  simp [isTopSlash]

theorem specSegments_length {s : List Char} :
    ∀ (cuts : List Nat) (start : Nat),
      (specSegments s cuts start).length = cuts.length + 1
  | [], _ => rfl
  | c :: rest, start => by
    simp [specSegments, specSegments_length rest (c + 1)]

theorem splitGo_eq_specSegments {s : List Char} :
    ∀ (rem : Nat), ∀ (i depth start : Nat), rem = s.length - i → depth = depthAt s i →
      splitGo s rem i depth start =
        specSegments s ((List.range' i rem).filter (isTopSlash s)) start := by
  intro rem
  induction rem with
  | zero =>
    intro i depth start _ _
    simp [splitGo, specSegments]
  | succ rem IH =>
    intro i depth start hrem hdepth
    subst hdepth
    have hi : i < s.length := by omega
    have hrem2 : rem = s.length - (i + 1) := by omega
    have hrange : List.range' i (rem + 1) = i :: List.range' (i + 1) rem :=
      List.range'_succ i rem 1
    cases hc : s[i]? with
    | none =>
      rw [List.getElem?_eq_getElem hi] at hc
      exact Option.noConfusion hc
    | some c =>
      have hstep := depthAt_succ hc
      simp only [splitGo, hc]
      by_cases h1 : c = '(' ∨ c = '['
      · have hts : isTopSlash s i = false :=
          isTopSlash_false_of_ne_slash hc (by rcases h1 with h | h <;> simp [h])
        have hfilter : (List.range' i (rem + 1)).filter (isTopSlash s) =
            (List.range' (i + 1) rem).filter (isTopSlash s) := by
          rw [hrange]
          simp [List.filter_cons, hts]
        rw [if_pos h1, hfilter]
        have hd : depthAt s i + 1 = depthAt s (i + 1) := by
          rw [hstep, depthStep, if_pos h1]
        rw [hd]
        exact IH (i + 1) _ start hrem2 rfl
      · rw [if_neg h1]
        by_cases h2 : c = ')' ∨ c = ']'
        · have hts : isTopSlash s i = false :=
            isTopSlash_false_of_ne_slash hc (by rcases h2 with h | h <;> simp [h])
          have hfilter : (List.range' i (rem + 1)).filter (isTopSlash s) =
              (List.range' (i + 1) rem).filter (isTopSlash s) := by
            rw [hrange]
            simp [List.filter_cons, hts]
          rw [if_pos h2, hfilter]
          have hd : (if 0 < depthAt s i then depthAt s i - 1 else depthAt s i) =
              depthAt s (i + 1) := by
            rw [hstep, depthStep, if_neg h1, if_pos h2]
          rw [hd]
          exact IH (i + 1) _ start hrem2 rfl
        · rw [if_neg h2]
          by_cases h3 : c = '/' ∧ depthAt s i = 0
          · have hts : isTopSlash s i = true :=
              isTopSlash_true_iff.2 ⟨h3.1 ▸ hc, h3.2⟩
            have hfilter : (List.range' i (rem + 1)).filter (isTopSlash s) =
                i :: (List.range' (i + 1) rem).filter (isTopSlash s) := by
              rw [hrange]
              simp [List.filter_cons, hts]
            rw [if_pos h3, hfilter]
            have hd : depthAt s i = depthAt s (i + 1) := by
              rw [hstep, depthStep, if_neg h1, if_neg h2]
            simp only [specSegments]
            rw [hd, IH (i + 1) _ (i + 1) hrem2 rfl]
          · have hts : isTopSlash s i = false := by
              by_cases hcs : c = '/'
              · exact isTopSlash_false_of_depth (fun hdz => h3 ⟨hcs, hdz⟩)
              · exact isTopSlash_false_of_ne_slash hc hcs
            have hfilter : (List.range' i (rem + 1)).filter (isTopSlash s) =
                (List.range' (i + 1) rem).filter (isTopSlash s) := by
              rw [hrange]
              simp [List.filter_cons, hts]
            rw [if_neg h3, hfilter]
            have hd : depthAt s i = depthAt s (i + 1) := by
              rw [hstep, depthStep, if_neg h1, if_neg h2]
            rw [hd]
            exact IH (i + 1) _ start hrem2 rfl

theorem split_eq_specSegments (s : List Char) :
    split_by_top_level_slash s = specSegments s (specCutPoints s) 0 := by
  rw [split_by_top_level_slash,
    splitGo_eq_specSegments s.length 0 0 0 (by omega) rfl, specCutPoints,
    List.range_eq_range']

theorem intercalate_cons_of_ne_nil {sep a : List Char} :
    ∀ {l : List (List Char)}, l ≠ [] →
      List.intercalate sep (a :: l) = a ++ sep ++ List.intercalate sep l
  | [], h => absurd rfl h
  | b :: t, _ => by simp [List.intercalate, List.intersperse]

theorem specSegments_intercalate {s : List Char} :
    ∀ (cuts : List Nat) (start : Nat),
      (∀ c ∈ cuts, start ≤ c ∧ c < s.length ∧ s[c]? = some '/') →
      List.Pairwise (fun a b => a < b) cuts →
      List.intercalate ['/'] (specSegments s cuts start) = s.drop start
  | [], start, _, _ => by simp [specSegments, List.intercalate, List.intersperse]
  | c :: rest, start, hmem, hpair => by
    have hc := hmem c (List.mem_cons_self _ _)
    have hrest : ∀ b ∈ rest, c + 1 ≤ b ∧ b < s.length ∧ s[b]? = some '/' :=
      fun b hb => ⟨(List.pairwise_cons.1 hpair).1 b hb,
        (hmem b (List.mem_cons_of_mem _ hb)).2⟩
    have hIH := specSegments_intercalate rest (c + 1) hrest
      (List.pairwise_cons.1 hpair).2
    have hne : specSegments s rest (c + 1) ≠ [] := by
      cases rest <;> simp [specSegments]
    rw [specSegments, intercalate_cons_of_ne_nil hne, hIH]
    have hdropc : s.drop c = '/' :: s.drop (c + 1) := by
      rw [List.drop_eq_getElem_cons hc.2.1]
      rw [List.getElem?_eq_getElem hc.2.1] at hc
      have := hc.2.2
      injection this with hv
      rw [hv]
    have hsplit2 : (s.drop start).drop (c - start) = s.drop c := by
      rw [List.drop_drop]
      congr 1
      omega
    calc (s.drop start).take (c - start) ++ ['/'] ++ s.drop (c + 1)
        = (s.drop start).take (c - start) ++ ('/' :: s.drop (c + 1)) := by simp
      _ = (s.drop start).take (c - start) ++ s.drop c := by rw [hdropc]
      _ = (s.drop start).take (c - start) ++ (s.drop start).drop (c - start) := by
          rw [hsplit2]
      _ = s.drop start := List.take_append_drop _ _

theorem specCutPoints_mem {s : List Char} {c : Nat}
    (h : c ∈ specCutPoints s) : c < s.length ∧ s[c]? = some '/' := by
  rw [specCutPoints, List.mem_filter] at h
  obtain ⟨hr, hts⟩ := h
  exact ⟨List.mem_range.1 hr, (isTopSlash_true_iff.1 hts).1⟩

theorem specCutPoints_pairwise (s : List Char) :
    List.Pairwise (fun a b => a < b) (specCutPoints s) :=
  (List.pairwise_lt_range s.length).filter _

/-! ### Claim C6 -/

/-- C6 (confirmed): split_by_top_level_slash cuts its input exactly at the
slash positions whose bracket depth is zero under the claimed dynamics
(depth up on ( or [, down on ) or ] but never below zero, all other
characters including curly braces ignored); it always returns one more
segment than there are top-level slashes, hence at least one segment, and
the trailing segment after the last cut is always present (empty when the
input ends with a top-level slash). -/
theorem split_by_top_level_slash_spec (s : List Char) :
    split_by_top_level_slash s = specSegments s (specCutPoints s) 0 ∧
    (split_by_top_level_slash s).length = (specCutPoints s).length + 1 := by
  refine ⟨split_eq_specSegments s, ?_⟩
  rw [split_eq_specSegments s, specSegments_length]

/-! ### Claim C10 -/

/-- C10 (confirmed): joining the segments returned by
split_by_top_level_slash with the separator / restores the input exactly:
the splitter partitions its input around the removed top-level slashes,
losing and duplicating nothing. -/
theorem intercalate_split_by_top_level_slash (s : List Char) :
    List.intercalate ['/'] (split_by_top_level_slash s) = s := by
  rw [split_eq_specSegments s,
    specSegments_intercalate (specCutPoints s) 0
      (fun c hc => ⟨Nat.zero_le c, (specCutPoints_mem hc).1, (specCutPoints_mem hc).2⟩)
      (specCutPoints_pairwise s)]
  exact List.drop_zero s

/-! ### Helper lemmas: the bracket matcher against its specification -/

theorem closeFor_ne {oc cc : Char} (h : closeFor oc = some cc) : ¬ oc = cc := by
  intro he
  subst he
  unfold closeFor at h
  split_ifs at h with h1 h2 h3 <;> simp_all

theorem listSlice_single {s : List Char} {c : Char} {m : Nat}
    (hc : s[m]? = some c) : listSlice s m (m + 1) = [c] := by
  have hm : m < s.length := (List.getElem?_eq_some.1 hc).1
  have hv : s[m] = c := by
    rw [List.getElem?_eq_getElem hm] at hc
    injection hc
  unfold listSlice
  rw [show m + 1 - m = 1 from by omega, List.drop_eq_getElem_cons hm, hv]
  rfl

theorem listSlice_cons {s : List Char} {c : Char} {m x : Nat}
    (hc : s[m]? = some c) (hmx : m ≤ x) :
    listSlice s m (x + 1) = c :: listSlice s (m + 1) (x + 1) := by
  have hm : m < s.length := (List.getElem?_eq_some.1 hc).1
  have hv : s[m] = c := by
    rw [List.getElem?_eq_getElem hm] at hc
    injection hc
  unfold listSlice
  rw [show x + 1 - m = (x - m) + 1 from by omega,
    show x + 1 - (m + 1) = x - m from by omega,
    List.drop_eq_getElem_cons hm, hv, List.take_succ_cons]

theorem sameDepth_cons {s : List Char} {oc cc c : Char} {m x : Nat}
    (hocc : ¬ oc = cc) (hc : s[m]? = some c) (hmx : m ≤ x) (d : Int) :
    sameDepth s oc cc d m x =
      sameDepth s oc cc (d + (if c = oc then 1 else if c = cc then -1 else 0))
        (m + 1) x := by
  unfold sameDepth
  rw [listSlice_cons hc hmx]
  simp only [List.count_cons, beq_iff_eq]
  split_ifs with h1 h2
  · exact absurd (h1.symm.trans h2) hocc
  · push_cast
    ring
  · push_cast
    ring
  · push_cast
    ring

theorem sameDepth_single {s : List Char} {oc cc c : Char} {m : Nat}
    (hocc : ¬ oc = cc) (hc : s[m]? = some c) (d : Int) :
    sameDepth s oc cc d m m =
      d + (if c = oc then 1 else if c = cc then -1 else 0) := by
  unfold sameDepth
  rw [listSlice_single hc]
  simp only [List.count_cons, List.count_nil, beq_iff_eq]
  split_ifs with h1 h2
  · exact absurd (h1.symm.trans h2) hocc
  · push_cast
    ring
  · push_cast
    ring
  · push_cast
    ring

theorem find_congr_aux {p q : Nat → Bool} :
    ∀ {l : List Nat}, (∀ x ∈ l, p x = q x) → l.find? p = l.find? q
  | [], _ => rfl
  | a :: t, h => by
    rw [List.find?_cons, List.find?_cons, h a (List.mem_cons_self _ _),
      find_congr_aux (fun x hx => h x (List.mem_cons_of_mem _ hx))]

theorem fmbGo_eq_find {s : List Char} {oc cc : Char} (hocc : ¬ oc = cc) :
    ∀ (rem : Nat), ∀ (m d : Nat), 1 ≤ d → rem = s.length - m →
      fmbGo s oc cc rem m d =
        intOfFound ((List.range' m rem).find?
          (fun x => sameDepth s oc cc (d : Int) m x == 0)) := by
  intro rem
  induction rem with
  | zero => intro m d _ _; rfl
  | succ rem IH =>
    intro m d hd hrem
    have hm : m < s.length := by omega
    cases hc : s[m]? with
    | none =>
      rw [List.getElem?_eq_getElem hm] at hc
      exact Option.noConfusion hc
    | some c =>
      have hrange : List.range' m (rem + 1) = m :: List.range' (m + 1) rem :=
        List.range'_succ m rem 1
      simp only [fmbGo, hc]
      set d2 := if c = oc then d + 1 else if c = cc then d - 1 else d with hd2
      have hd2Int : (d2 : Int) = (d : Int) + (if c = oc then 1 else if c = cc then -1 else 0) := by
        rw [hd2]
        split_ifs <;> push_cast <;> omega
      have hsame : sameDepth s oc cc (d : Int) m m = (d2 : Int) := by
        rw [sameDepth_single hocc hc, hd2Int]
      have hpredm : ((fun x => sameDepth s oc cc (d : Int) m x == 0) m = true) ↔ d2 = 0 := by
        simp [hsame]
      by_cases hz : d2 = 0
      · rw [if_pos hz, hrange,
          @List.find?_cons_of_pos _ (fun x => sameDepth s oc cc (d : Int) m x == 0) m
            (List.range' (m + 1) rem) (hpredm.2 hz)]
        rfl
      · rw [if_neg hz, IH (m + 1) d2 (by omega) (by omega), hrange,
          @List.find?_cons_of_neg _ (fun x => sameDepth s oc cc (d : Int) m x == 0) m
            (List.range' (m + 1) rem) (fun hp => hz (hpredm.1 hp))]
        congr 1
        apply find_congr_aux
        intro x hx
        have hmx : m + 1 ≤ x := (List.mem_range'_1.1 hx).1
        rw [sameDepth_cons hocc hc (by omega) (d : Int), hd2Int]

/-! ### Claim C5 -/

/-- C5 (corrected): for an index within the string, find_matching_bracket
returns -1 immediately when the character there is not an opening bracket,
and otherwise coincides exactly with the reference SAME-TYPE matcher: the
first later position at which the depth of same-type brackets (starting at
one, counting only the opening character and its own closing character)
returns to zero, or -1 when the string ends first.  Different-type bracket
pairs in between are NOT skipped, contrary to the claim's wording. -/
theorem find_matching_bracket_same_type (s : List Char) (i : Nat)
    (h : i < s.length) : find_matching_bracket s i = specSameMatch s i := by
  have hget : s[i]? = some s[i] := List.getElem?_eq_getElem h
  simp only [find_matching_bracket, specSameMatch, hget]
  cases hclose : closeFor s[i] with
  | none => rfl
  | some cc =>
    have := fmbGo_eq_find (s := s) (closeFor_ne hclose) (s.length - (i + 1)) (i + 1) 1
      (by omega) (by omega)
    simpa using this

/-- C5 counterexample: in the string ([)] the different-type pair [ ... ]
encloses the ) at index 2, so a matcher that skips different-type pairs
finds no match for the ( at index 0 (the spec-modelled cross-type matcher
returns none), yet find_matching_bracket returns 2, an index strictly
inside that different-type pair. -/
theorem find_matching_bracket_cross_counterexample :
    find_matching_bracket ("([)]".toList) 0 = 2 ∧
    specCrossMatch ("([)]".toList) 0 = none := by decide

/-- Witness for C5: the code and the same-type reference matcher agree on
a concrete nested input. -/
theorem find_matching_bracket_same_type_witness :
    find_matching_bracket ("(a(b)c)".toList) 0 = specSameMatch ("(a(b)c)".toList) 0 :=
  find_matching_bracket_same_type ("(a(b)c)".toList) 0 (by decide)

/-! ### Helper lemmas: position-shift invariance of the evaluator -/

theorem fmbGo_nonneg {s : List Char} {oc cc : Char} :
    ∀ (rem t d : Nat), fmbGo s oc cc rem t d = -1 ∨ 0 ≤ fmbGo s oc cc rem t d
  | 0, _, _ => Or.inl rfl
  | rem + 1, t, d => by
    cases hc : s[t]? with
    | none => simp [fmbGo, hc]
    | some c =>
      simp only [fmbGo, hc]
      by_cases hz : (if c = oc then d + 1 else if c = cc then d - 1 else d) = 0
      · rw [if_pos hz]
        exact Or.inr (by omega)
      · rw [if_neg hz]
        exact fmbGo_nonneg rem (t + 1) _

theorem fmbGo_shift {s : List Char} {oc cc : Char} (i0 : Nat) :
    ∀ (rem t d : Nat),
      fmbGo s oc cc rem (i0 + t) d =
        (if fmbGo (s.drop i0) oc cc rem t d = -1 then -1
         else fmbGo (s.drop i0) oc cc rem t d + (i0 : Int))
  | 0, _, _ => by simp [fmbGo]
  | rem + 1, t, d => by
    have hsc : s[i0 + t]? = (s.drop i0)[t]? := (List.getElem?_drop s i0 t).symm
    cases hc : (s.drop i0)[t]? with
    | none => simp [fmbGo, hsc, hc]
    | some c =>
      simp only [fmbGo, hsc, hc]
      by_cases hz : (if c = oc then d + 1 else if c = cc then d - 1 else d) = 0
      · rw [if_pos hz, if_pos hz, if_neg (show ¬ ((t : Nat) : Int) = -1 by omega)]
        push_cast
        ring
      · rw [if_neg hz, if_neg hz, show i0 + t + 1 = i0 + (t + 1) from by omega]
        exact fmbGo_shift i0 rem (t + 1) _

theorem find_matching_bracket_nonneg (s : List Char) (i : Nat) :
    find_matching_bracket s i = -1 ∨ 0 ≤ find_matching_bracket s i := by
  cases hg : s[i]? with
  | none => exact Or.inl (by simp [find_matching_bracket, hg])
  | some oc =>
    cases hcl : closeFor oc with
    | none => exact Or.inl (by simp [find_matching_bracket, hg, hcl])
    | some cc =>
      have he : find_matching_bracket s i = fmbGo s oc cc (s.length - (i + 1)) (i + 1) 1 := by
        simp [find_matching_bracket, hg, hcl]
      rw [he]
      exact fmbGo_nonneg _ _ _

theorem find_matching_bracket_shift (s : List Char) (i0 t : Nat) :
    find_matching_bracket s (i0 + t) =
      (if find_matching_bracket (s.drop i0) t = -1 then -1
       else find_matching_bracket (s.drop i0) t + (i0 : Int)) := by
  have hsc : s[i0 + t]? = (s.drop i0)[t]? := (List.getElem?_drop s i0 t).symm
  cases hc : (s.drop i0)[t]? with
  | none => simp [find_matching_bracket, hsc, hc]
  | some oc =>
    simp only [find_matching_bracket, hsc, hc]
    cases hcl : closeFor oc with
    | none => simp
    | some cc =>
      rw [List.length_drop,
        show s.length - i0 - (t + 1) = s.length - (i0 + t + 1) from by omega,
        show i0 + t + 1 = i0 + (t + 1) from by omega]
      exact fmbGo_shift i0 (s.length - (i0 + (t + 1))) (t + 1) 1

theorem seqGo_shift {ev : List Char → Nat → Except GenErr (List Char × Nat)}
    {definitions : Defs} {g : Nat → Nat} :
    ∀ (n : Nat) (s : List Char) (i rem rem2 k : Nat), s.length - i = n →
      s.length - i < rem → s.length - i < rem2 →
      seqGo ev definitions g s rem i k = seqGo ev definitions g (s.drop i) rem2 0 k := by
  intro n
  induction n using Nat.strong_induction_on with
  | _ n IH =>
    intro s i rem rem2 k hn hrem hrem2
    obtain ⟨r, rfl⟩ : ∃ r, rem = r + 1 := ⟨rem - 1, by omega⟩
    obtain ⟨r2, rfl⟩ : ∃ r2, rem2 = r2 + 1 := ⟨rem2 - 1, by omega⟩
    have hsc : (s.drop i)[0]? = s[i]? := by
      rw [List.getElem?_drop, Nat.add_zero]
    cases hc : s[i]? with
    | none =>
      rw [seqGo_end hc, seqGo_end (by rw [hsc, hc])]
    | some c =>
      have hc2 : (s.drop i)[0]? = some c := by rw [hsc, hc]
      have hi : i < s.length := (List.getElem?_eq_some.1 hc).1
      have hdropdrop : ∀ m : Nat, (s.drop i).drop m = s.drop (i + m) := by
        intro m
        rw [List.drop_drop, Nat.add_comm]
      have hcont1 : seqGo ev definitions g s r (i + 1) k =
          seqGo ev definitions g (s.drop i) r2 1 k := by
        rw [IH (s.length - (i + 1)) (by omega) s (i + 1) r (s.length + 1) k rfl
          (by omega) (by omega)]
        rw [IH ((s.drop i).length - 1) (by rw [List.length_drop]; omega)
          (s.drop i) 1 r2 (s.length + 1) k rfl
          (by rw [List.length_drop]; omega) (by rw [List.length_drop]; omega)]
        rw [hdropdrop 1]
      have hfmb := find_matching_bracket_shift s i 0
      rw [Nat.add_zero] at hfmb
      by_cases hj : find_matching_bracket (s.drop i) 0 = -1
      · have hjL : find_matching_bracket s i = -1 := by rw [hfmb, if_pos hj]
        by_cases h1 : c = '{'
        · subst h1
          rw [seqGo_unmatched hc (Or.inl rfl) hjL,
            seqGo_unmatched hc2 (Or.inl rfl) hj, hcont1]
        · by_cases h2 : c = '['
          · subst h2
            rw [seqGo_unmatched hc (Or.inr (Or.inl rfl)) hjL,
              seqGo_unmatched hc2 (Or.inr (Or.inl rfl)) hj, hcont1]
          · by_cases h3 : c = '('
            · subst h3
              rw [seqGo_unmatched hc (Or.inr (Or.inr rfl)) hjL,
                seqGo_unmatched hc2 (Or.inr (Or.inr rfl)) hj, hcont1]
            · rw [seqGo_literal hc h1 h2 h3, seqGo_literal hc2 h1 h2 h3, hcont1]
      · have hj0 : 0 ≤ find_matching_bracket (s.drop i) 0 :=
          (find_matching_bracket_nonneg _ _).resolve_left hj
        set j2 := find_matching_bracket (s.drop i) 0 with hj2def
        have hjL : find_matching_bracket s i = j2 + (i : Int) := by
          rw [hfmb, if_neg hj]
        have hjLne : ¬ (j2 + (i : Int)) = -1 := by omega
        have htoNat : (j2 + (i : Int)).toNat = j2.toNat + i := by omega
        have hslice : listSlice s (i + 1) (j2 + (i : Int)).toNat =
            listSlice (s.drop i) 1 j2.toNat := by
          unfold listSlice
          rw [hdropdrop 1, htoNat]
          congr 1
          omega
        have hcont : ∀ k3 : Nat,
            seqGo ev definitions g s r ((j2 + (i : Int)).toNat + 1) k3 =
              seqGo ev definitions g (s.drop i) r2 (j2.toNat + 1) k3 := by
          intro k3
          rw [htoNat]
          rw [IH (s.length - (j2.toNat + i + 1)) (by omega) s (j2.toNat + i + 1) r
            (s.length + 1) k3 rfl (by omega) (by omega)]
          rw [IH ((s.drop i).length - (j2.toNat + 1)) (by rw [List.length_drop]; omega)
            (s.drop i) (j2.toNat + 1) r2 (s.length + 1) k3 rfl
            (by rw [List.length_drop]; omega) (by rw [List.length_drop]; omega)]
          rw [hdropdrop (j2.toNat + 1),
            show i + (j2.toNat + 1) = j2.toNat + i + 1 from by omega]
        by_cases h1 : c = '{'
        · subst h1
          cases hl : lookupDef definitions (listSlice (s.drop i) 1 j2.toNat) with
          | none =>
            rw [seqGo_ref_none hc hjL hjLne (by rw [hslice]; exact hl),
              seqGo_ref_none hc2 hj2def.symm hj hl]
            exact hcont k
          | some dp =>
            rw [seqGo_ref_some hc hjL hjLne (by rw [hslice]; exact hl),
              seqGo_ref_some hc2 hj2def.symm hj hl]
            congr 1
            funext vk
            rw [hcont vk.2]
        · by_cases h2 : c = '['
          · subst h2
            rw [seqGo_mandatory hc hjL hjLne, seqGo_mandatory hc2 hj2def.symm hj, hslice]
            congr 1
            funext vk
            rw [hcont vk.2]
          · by_cases h3 : c = '('
            · subst h3
              by_cases hcoin : g k % 2 = 0
              · rw [seqGo_optional_take hc hjL hjLne hcoin,
                  seqGo_optional_take hc2 hj2def.symm hj hcoin, hslice]
                congr 1
                funext vk
                rw [hcont vk.2]
              · rw [seqGo_optional_skip hc hjL hjLne hcoin,
                  seqGo_optional_skip hc2 hj2def.symm hj hcoin]
                exact hcont (k + 1)
            · rw [seqGo_literal hc h1 h2 h3, seqGo_literal hc2 h1 h2 h3, hcont1]

theorem fmbGo_brace :
    ∀ (nm : List Char), '{' ∉ nm → '}' ∉ nm → ∀ (rest : List Char) (rem : Nat),
      nm.length < rem →
      fmbGo (nm ++ '}' :: rest) '{' '}' rem 0 1 = (nm.length : Int)
  | [], _, _, rest, rem, hrem => by
    obtain ⟨r, rfl⟩ : ∃ r, rem = r + 1 := ⟨rem - 1, by omega⟩
    simp [fmbGo]
  | c :: nm, h1, h2, rest, rem, hrem => by
    obtain ⟨r, rfl⟩ : ∃ r, rem = r + 1 := ⟨rem - 1, by omega⟩
    have hco : ¬ c = '{' := fun he => h1 (he ▸ List.mem_cons_self _ _)
    have hcc : ¬ c = '}' := fun he => h2 (he ▸ List.mem_cons_self _ _)
    have hc0 : ((c :: nm) ++ '}' :: rest)[0]? = some c := by simp
    simp only [fmbGo, hc0]
    rw [if_neg hco, if_neg hcc, if_neg (show ¬ (1 : Nat) = 0 by decide)]
    have hshift := @fmbGo_shift ((c :: nm) ++ '}' :: rest) '{' '}' 1 r 0 1
    rw [Nat.add_zero] at hshift
    have hdrop : ((c :: nm) ++ '}' :: rest).drop 1 = nm ++ '}' :: rest := rfl
    rw [hshift, hdrop,
      fmbGo_brace nm (fun hm => h1 (List.mem_cons_of_mem _ hm))
        (fun hm => h2 (List.mem_cons_of_mem _ hm)) rest r
        (by simp only [List.length_cons] at hrem; omega),
      if_neg (show ¬ (nm.length : Int) = -1 by omega)]
    simp only [List.length_cons]
    push_cast
    ring

theorem find_matching_bracket_brace (nm rest : List Char)
    (h1 : '{' ∉ nm) (h2 : '}' ∉ nm) :
    find_matching_bracket ('{' :: (nm ++ '}' :: rest)) 0 = (nm.length : Int) + 1 := by
  have hs0 : ('{' :: (nm ++ '}' :: rest))[0]? = some '{' := List.getElem?_cons_zero
  have he : find_matching_bracket ('{' :: (nm ++ '}' :: rest)) 0 =
      fmbGo ('{' :: (nm ++ '}' :: rest)) '{' '}'
        (('{' :: (nm ++ '}' :: rest)).length - 1) 1 1 := by
    simp [find_matching_bracket, hs0, closeFor]
  rw [he]
  have hshift := @fmbGo_shift ('{' :: (nm ++ '}' :: rest)) '{' '}' 1
    (('{' :: (nm ++ '}' :: rest)).length - 1) 0 1
  rw [Nat.add_zero] at hshift
  have hdrop : ('{' :: (nm ++ '}' :: rest)).drop 1 = nm ++ '}' :: rest := rfl
  rw [hshift, hdrop,
    fmbGo_brace nm h1 h2 rest _ (by simp),
    if_neg (show ¬ (nm.length : Int) = -1 by omega)]
  push_cast
  ring

/-! ### Claim C9 -/

/-- C9 (confirmed): a matched reference group whose name is absent from
the definition table contributes nothing to the output and scanning
continues past the closing brace: evaluating a pattern that starts with
such a group is identical, for every stream, fuel and draw position, to
evaluating the remainder of the pattern on its own, so a missing
definition is not an error and the rest of the pattern is still
expanded. -/
theorem process_sequence_missing_ref (g : Nat → Nat) (definitions : Defs)
    (fuel : Nat) (nm rest : List Char) (k : Nat)
    (h1 : '{' ∉ nm) (h2 : '}' ∉ nm)
    (hl : lookupDef definitions nm = none) :
    process_sequence g definitions fuel ('{' :: (nm ++ '}' :: rest)) k =
      process_sequence g definitions fuel rest k := by
  unfold process_sequence
  have hfmb := find_matching_bracket_brace nm rest h1 h2
  have hslice : listSlice ('{' :: (nm ++ '}' :: rest)) (0 + 1)
      ((nm.length : Int) + 1).toNat = nm := by
    unfold listSlice
    rw [show ((nm.length : Int) + 1).toNat = nm.length + 1 from by omega]
    have : ('{' :: (nm ++ '}' :: rest)).drop (0 + 1) = nm ++ '}' :: rest := rfl
    rw [this, show nm.length + 1 - (0 + 1) = nm.length from by omega, List.take_left]
  rw [seqGo_ref_none (List.getElem?_cons_zero)
    hfmb (by omega) (by rw [hslice]; exact hl)]
  rw [show ((nm.length : Int) + 1).toNat + 1 = nm.length + 2 from by omega]
  rw [seqGo_shift (('{' :: (nm ++ '}' :: rest)).length - (nm.length + 2))
    ('{' :: (nm ++ '}' :: rest)) (nm.length + 2)
    ('{' :: (nm ++ '}' :: rest)).length (rest.length + 1) k rfl
    (by simp only [List.length_cons, List.length_append]; omega)
    (by simp only [List.length_cons, List.length_append]; omega)]
  have hdrop : ('{' :: (nm ++ '}' :: rest)).drop (nm.length + 2) = rest := by
    have hform : '{' :: (nm ++ '}' :: rest) = ('{' :: nm ++ ['}']) ++ rest := by
      simp
    rw [hform, show nm.length + 2 = ('{' :: nm ++ ['}']).length from by simp,
      List.drop_left]
  rw [hdrop]

/-- Witness for C9: a concrete missing reference expands to nothing and
the remainder is evaluated unchanged. -/
theorem process_sequence_missing_ref_witness :
    process_sequence (fun _ => 0) [] 1 ('{' :: ("X".toList ++ '}' :: "ab".toList)) 0 =
      process_sequence (fun _ => 0) [] 1 ("ab".toList) 0 :=
  process_sequence_missing_ref (fun _ => 0) [] 1 ("X".toList) ("ab".toList) 0
    (by decide) (by decide) rfl

/-! ### Helper lemmas: the generation loop -/

section GenLoopSteps

variable {g : Nat → Nat} {fuel : Nat} {definitions : Defs} {base : List Char}
variable {filters : List (List Char)} {count : Nat}
variable {acc : List (List Char)} {k : Nat}

theorem genLoop_zero :
    genLoop g fuel definitions base filters count 0 acc k = .ok acc := rfl

theorem genLoop_stop {rem : Nat} (h : ¬ acc.length < count) :
    genLoop g fuel definitions base filters count (rem + 1) acc k = .ok acc := by
  simp [genLoop, h]

theorem genLoop_step {rem : Nat} {word : List Char} {k1 : Nat}
    (hlt : acc.length < count)
    (hev : evaluate_pattern g definitions fuel base k = .ok (word, k1)) :
    genLoop g fuel definitions base filters count (rem + 1) acc k =
      genLoop g fuel definitions base filters count rem
        (acceptStep filters acc word) k1 := by
  simp [genLoop, hlt, hev]

theorem genLoop_step_error {rem : Nat} {e : GenErr}
    (hlt : acc.length < count)
    (hev : evaluate_pattern g definitions fuel base k = .error e) :
    genLoop g fuel definitions base filters count (rem + 1) acc k = .error e := by
  simp [genLoop, hlt, hev]

end GenLoopSteps

/-- Every successful generation run is an in-order fold of the acceptance
step over the list of candidate words produced by the successive pattern
evaluations, and the number of candidates (the loop's attempts) is bounded
by the countdown. -/
theorem genLoop_trace {g : Nat → Nat} {fuel : Nat} {definitions : Defs}
    {base : List Char} {filters : List (List Char)} {count : Nat} :
    ∀ (rem : Nat) (acc : List (List Char)) (k : Nat) (ws : List (List Char)),
      genLoop g fuel definitions base filters count rem acc k = .ok ws →
      ∃ cands : List (List Char), cands.length ≤ rem ∧
        ws = cands.foldl (acceptStep filters) acc
  | 0, acc, k, ws, h => by
    rw [genLoop_zero] at h
    injection h with h
    exact ⟨[], by simp, h.symm⟩
  | rem + 1, acc, k, ws, h => by
    by_cases hlt : acc.length < count
    · cases hev : evaluate_pattern g definitions fuel base k with
      | error e =>
        rw [genLoop_step_error hlt hev] at h
        exact absurd h (by simp)
      | ok wk =>
        obtain ⟨word, k1⟩ := wk
        rw [genLoop_step hlt hev] at h
        obtain ⟨cands, hlen, hws⟩ := genLoop_trace rem _ k1 ws h
        refine ⟨word :: cands, by simpa using Nat.succ_le_succ hlen, ?_⟩
        rw [List.foldl_cons]
        exact hws
    · rw [genLoop_stop hlt] at h
      injection h with h
      exact ⟨[], by simp, h.symm⟩

theorem acceptStep_cases (filters : List (List Char)) (acc : List (List Char))
    (w : List Char) :
    acceptStep filters acc w = acc ∨
      ((∀ f ∈ filters, ¬ f <:+: w) ∧ w ∉ acc ∧
        acceptStep filters acc w = acc ++ [w]) := by
  unfold acceptStep
  split_ifs with h
  · exact Or.inr ⟨h.1, h.2, rfl⟩
  · exact Or.inl rfl

theorem acceptStep_nodup {filters : List (List Char)} {acc : List (List Char)}
    {w : List Char} (h : acc.Nodup) : (acceptStep filters acc w).Nodup := by
  rcases acceptStep_cases filters acc w with he | ⟨_, hmem, he⟩
  · rw [he]; exact h
  · rw [he, List.nodup_append]
    exact ⟨h, List.nodup_singleton w,
      fun a ha hb => by rw [List.mem_singleton] at hb; exact hmem (hb ▸ ha)⟩

theorem acceptStep_filters_ok {filters : List (List Char)} {acc : List (List Char)}
    {w : List Char} (h : ∀ u ∈ acc, ∀ f ∈ filters, ¬ f <:+: u) :
    ∀ u ∈ acceptStep filters acc w, ∀ f ∈ filters, ¬ f <:+: u := by
  rcases acceptStep_cases filters acc w with he | ⟨hok, _, he⟩
  · rw [he]; exact h
  · rw [he]
    intro u hu f hf
    rcases List.mem_append.1 hu with hu | hu
    · exact h u hu f hf
    · rw [List.mem_singleton] at hu
      exact hu ▸ hok f hf

theorem foldl_acceptStep_nodup {filters : List (List Char)} :
    ∀ (cands acc : List (List Char)), acc.Nodup →
      (cands.foldl (acceptStep filters) acc).Nodup
  | [], acc, h => h
  | w :: cands, acc, h => by
    rw [List.foldl_cons]
    exact foldl_acceptStep_nodup cands _ (acceptStep_nodup h)

theorem foldl_acceptStep_filters {filters : List (List Char)} :
    ∀ (cands acc : List (List Char)),
      (∀ u ∈ acc, ∀ f ∈ filters, ¬ f <:+: u) →
      ∀ u ∈ cands.foldl (acceptStep filters) acc, ∀ f ∈ filters, ¬ f <:+: u
  | [], acc, h => h
  | w :: cands, acc, h => by
    rw [List.foldl_cons]
    exact foldl_acceptStep_filters cands _ (acceptStep_filters_ok h)

theorem genLoop_length_le {g : Nat → Nat} {fuel : Nat} {definitions : Defs}
    {base : List Char} {filters : List (List Char)} {count : Nat} :
    ∀ (rem : Nat) (acc : List (List Char)) (k : Nat) (ws : List (List Char)),
      acc.length ≤ count →
      genLoop g fuel definitions base filters count rem acc k = .ok ws →
      ws.length ≤ count
  | 0, acc, k, ws, hle, h => by
    rw [genLoop_zero] at h
    injection h with h
    exact h ▸ hle
  | rem + 1, acc, k, ws, hle, h => by
    by_cases hlt : acc.length < count
    · cases hev : evaluate_pattern g definitions fuel base k with
      | error e =>
        rw [genLoop_step_error hlt hev] at h
        exact absurd h (by simp)
      | ok wk =>
        obtain ⟨word, k1⟩ := wk
        rw [genLoop_step hlt hev] at h
        refine genLoop_length_le rem _ k1 ws ?_ h
        rcases acceptStep_cases filters acc word with he | ⟨_, _, he⟩ <;> rw [he]
        · exact hle
        · rw [List.length_append]
          simpa using hlt
    · rw [genLoop_stop hlt] at h
      injection h with h
      exact h ▸ hle

/-! ### Helper lemmas: safe patterns never hit the empty pool -/

theorem seqGo_safe_ne_emptyPool
    {ev : List Char → Nat → Except GenErr (List Char × Nat)} {sf : List Char → Bool}
    {definitions : Defs} {g : Nat → Nat} {s : List Char}
    (hsf : ∀ q k2, sf q = true → ev q k2 ≠ .error .emptyPool) :
    ∀ (rem i k : Nat), scanSafe sf definitions s rem i = true →
      seqGo ev definitions g s rem i k ≠ .error .emptyPool := by
  intro rem
  induction rem with
  | zero =>
    intro i k _ h
    simp only [seqGo] at h
    injection h with h
    exact absurd h (by decide)
  | succ rem IH =>
    intro i k hsafe h
    cases hc : s[i]? with
    | none => rw [seqGo_end hc] at h; exact absurd h (by simp)
    | some c =>
      simp only [scanSafe, hc] at hsafe
      by_cases h1 : c = '{'
      · subst h1
        rw [if_pos rfl] at hsafe
        by_cases hj : find_matching_bracket s i = -1
        · rw [if_pos hj] at hsafe
          rw [seqGo_unmatched hc (Or.inl rfl) hj] at h
          exact IH _ _ hsafe (except_map_error_iff.1 h)
        · rw [if_neg hj] at hsafe
          cases hl : lookupDef definitions
              (listSlice s (i + 1) (find_matching_bracket s i).toNat) with
          | none =>
            rw [hl] at hsafe
            rw [seqGo_ref_none hc rfl hj hl] at h
            exact IH _ _ hsafe h
          | some dp =>
            rw [hl, Bool.and_eq_true] at hsafe
            rw [seqGo_ref_some hc rfl hj hl] at h
            rcases except_bind_error_iff.1 h with he | ⟨u, _, hu⟩
            · exact hsf dp k hsafe.1 he
            · exact IH _ _ hsafe.2 (except_map_error_iff.1 hu)
      · rw [if_neg h1] at hsafe
        by_cases h2 : c = '['
        · subst h2
          rw [if_pos rfl] at hsafe
          by_cases hj : find_matching_bracket s i = -1
          · rw [if_pos hj] at hsafe
            rw [seqGo_unmatched hc (Or.inr (Or.inl rfl)) hj] at h
            exact IH _ _ hsafe (except_map_error_iff.1 h)
          · rw [if_neg hj, Bool.and_eq_true] at hsafe
            rw [seqGo_mandatory hc rfl hj] at h
            rcases except_bind_error_iff.1 h with he | ⟨u, _, hu⟩
            · exact hsf _ k hsafe.1 he
            · exact IH _ _ hsafe.2 (except_map_error_iff.1 hu)
        · rw [if_neg h2] at hsafe
          by_cases h3 : c = '('
          · subst h3
            rw [if_pos rfl] at hsafe
            by_cases hj : find_matching_bracket s i = -1
            · rw [if_pos hj] at hsafe
              rw [seqGo_unmatched hc (Or.inr (Or.inr rfl)) hj] at h
              exact IH _ _ hsafe (except_map_error_iff.1 h)
            · rw [if_neg hj, Bool.and_eq_true] at hsafe
              by_cases hcoin : g k % 2 = 0
              · rw [seqGo_optional_take hc rfl hj hcoin] at h
                rcases except_bind_error_iff.1 h with he | ⟨u, _, hu⟩
                · exact hsf _ (k + 1) hsafe.1 he
                · exact IH _ _ hsafe.2 (except_map_error_iff.1 hu)
              · rw [seqGo_optional_skip hc rfl hj hcoin] at h
                exact IH _ _ hsafe.2 h
          · rw [if_neg h3] at hsafe
            rw [seqGo_literal hc h1 h2 h3] at h
            exact IH _ _ hsafe (except_map_error_iff.1 h)

/-- Unfolding of evalSafe at positive fuel once the split and the pool
are known. -/
theorem evalSafe_step {definitions : Defs} {fuel : Nat} {p : List Char}
    {opts wl : List (List Char)}
    (hsplit : split_by_top_level_slash p = opts) (hne : ¬ opts = [])
    (hw : opts.foldl (fun acc opt =>
      let bw := parse_weight opt
      acc ++ List.replicate bw.2.toNat bw.1) [] = wl) (hwne : ¬ wl = []) :
    evalSafe definitions (fuel + 1) p =
      wl.all (fun chosen =>
        scanSafe (fun q => evalSafe definitions fuel q) definitions chosen
          (chosen.length + 1) 0) := by
  simp only [evalSafe, hsplit, hw]
  rw [if_neg hne, if_neg hwne]

theorem evaluate_pattern_safe_ne_emptyPool {g : Nat → Nat} {definitions : Defs} :
    ∀ (fuel : Nat) (p : List Char) (k : Nat), evalSafe definitions fuel p = true →
      evaluate_pattern g definitions fuel p k ≠ .error .emptyPool := by
  intro fuel
  induction fuel with
  | zero =>
    intro p k _ h
    simp only [evaluate_pattern] at h
    injection h with h
    exact absurd h (by decide)
  | succ fuel IH =>
    intro p k hsafe h
    by_cases hne : split_by_top_level_slash p = []
    · simp only [evaluate_pattern, hne, reduceIte] at h
      exact absurd h (by simp)
    · by_cases hwne : (split_by_top_level_slash p).foldl
          (fun acc opt =>
            let bw := parse_weight opt
            acc ++ List.replicate bw.2.toNat bw.1) [] = []
      · have hfalse : evalSafe definitions (fuel + 1) p = false := by
          simp only [evalSafe]
          rw [if_neg hne, if_pos hwne]
        rw [hfalse] at hsafe
        exact absurd hsafe (by decide)
      · rw [evalSafe_step rfl hne rfl hwne] at hsafe
        rw [evaluate_pattern_step rfl hne rfl hwne] at h
        set wl := (split_by_top_level_slash p).foldl
          (fun acc opt =>
            let bw := parse_weight opt
            acc ++ List.replicate bw.2.toNat bw.1) [] with hwl
        have hlt : g k % wl.length < wl.length :=
          Nat.mod_lt _ (List.length_pos.2 hwne)
        have hchosen : wl.getD (g k % wl.length) [] ∈ wl := getD_mem_of_lt hlt
        rw [List.all_eq_true] at hsafe
        exact seqGo_safe_ne_emptyPool (fun q k2 hq => IH q k2 hq) _ _ _
          (hsafe _ hchosen) h

theorem genLoop_ne_emptyPool {g : Nat → Nat} {fuel : Nat} {definitions : Defs}
    {base : List Char} {filters : List (List Char)} {count : Nat}
    (hev : ∀ k2, evaluate_pattern g definitions fuel base k2 ≠ .error .emptyPool) :
    ∀ (rem : Nat) (acc : List (List Char)) (k : Nat),
      genLoop g fuel definitions base filters count rem acc k ≠ .error .emptyPool
  | 0, acc, k => by
    rw [genLoop_zero]
    simp
  | rem + 1, acc, k => by
    by_cases hlt : acc.length < count
    · cases he : evaluate_pattern g definitions fuel base k with
      | error e =>
        rw [genLoop_step_error hlt he]
        intro hcon
        injection hcon with hcon
        exact hev k (hcon ▸ he)
      | ok wk =>
        obtain ⟨word, k1⟩ := wk
        rw [genLoop_step hlt he]
        exact genLoop_ne_emptyPool hev rem _ k1
    · rw [genLoop_stop hlt]
      simp

theorem scanSafe_of_true {sf : List Char → Bool} {definitions : Defs} {s : List Char}
    (hslice : ∀ a b, sf (listSlice s a b) = true)
    (hdefs : ∀ kv ∈ definitions, sf kv.2 = true) :
    ∀ (rem i : Nat), scanSafe sf definitions s rem i = true := by
  intro rem
  induction rem with
  | zero => intro i; rfl
  | succ rem IH =>
    intro i
    cases hc : s[i]? with
    | none => simp [scanSafe, hc]
    | some c =>
      simp only [scanSafe, hc]
      by_cases h1 : c = '{'
      · rw [if_pos h1]
        by_cases hj : find_matching_bracket s i = -1
        · rw [if_pos hj]
          exact IH _
        · rw [if_neg hj]
          cases hl : lookupDef definitions
              (listSlice s (i + 1) (find_matching_bracket s i).toNat) with
          | none => exact IH _
          | some dp =>
            obtain ⟨pq, hpq, hp2⟩ := lookupDef_mem hl
            rw [Bool.and_eq_true]
            exact ⟨hp2 ▸ hdefs pq hpq, IH _⟩
      · rw [if_neg h1]
        by_cases h2 : c = '['
        · rw [if_pos h2]
          by_cases hj : find_matching_bracket s i = -1
          · rw [if_pos hj]
            exact IH _
          · rw [if_neg hj, Bool.and_eq_true]
            exact ⟨hslice _ _, IH _⟩
        · rw [if_neg h2]
          by_cases h3 : c = '('
          · rw [if_pos h3]
            by_cases hj : find_matching_bracket s i = -1
            · rw [if_pos hj]
              exact IH _
            · rw [if_neg hj, Bool.and_eq_true]
              exact ⟨hslice _ _, IH _⟩
          · rw [if_neg h3]
            exact IH _

theorem evalSafe_of_no_star {definitions : Defs}
    (hdefs : ∀ kv ∈ definitions, '*' ∉ kv.2) :
    ∀ (fuel : Nat) (p : List Char), '*' ∉ p → evalSafe definitions fuel p = true := by
  intro fuel
  induction fuel with
  | zero => intro p _; rfl
  | succ fuel IH =>
    intro p hp
    have hopts : ∀ o ∈ split_by_top_level_slash p, parse_weight o = (o, 1) :=
      fun o ho => parse_weight_of_not_mem (fun hx => hp (mem_of_mem_split ho hx))
    have hw := weighted_pool_of_all_one (split_by_top_level_slash p) [] hopts
    rw [List.nil_append] at hw
    by_cases hne : split_by_top_level_slash p = []
    · simp [evalSafe, hne]
    · rw [evalSafe_step rfl hne hw hne, List.all_eq_true]
      intro chosen hmem
      have hchostar : '*' ∉ chosen := fun hx => hp (mem_of_mem_split hmem hx)
      exact scanSafe_of_true
        (fun a b => IH _ (fun hx => hchostar (listSlice_subset hx)))
        (fun kv hkv => IH _ (hdefs kv hkv)) _ _

/-! ### Claim C3 -/

/-- C3 (corrected): generate_words raises no exception for any
grammar-level malformation whose reachable selection pools are nonempty -
the decidable condition evalSafe, which fails only when some reachable
choice has every branch carrying an integer weight at most zero.  In
particular unmatched brackets, unknown reference names, non-numeric weight
suffixes and positive weights are all covered: patterns such as a*x, a*2,
a(b and a group with a missing name are safe for every recursion budget,
and so is every asterisk-free pattern and definition table.  Evaluating
the pattern a(b never raises and its output is the pattern itself,
containing the literal ( character.  (Self-referential definitions still
exhaust the recursion budget, the modelled RecursionError, as the
specification records; the empty pool of a*0 remains the one grammar-level
IndexError, per the counterexample.) -/
theorem generate_words_no_exception :
    (∀ (g : Nat → Nat) (fuel : Nat) (mainPattern : List Char)
        (definitionsList : List Defs) (count : Nat),
        evalSafe (mergeDefs definitionsList) fuel (basePatternOf mainPattern) = true →
        generate_words g fuel mainPattern definitionsList count ≠ .error .emptyPool) ∧
    (∀ (definitions : Defs) (fuel : Nat) (p : List Char), '*' ∉ p →
        (∀ kv ∈ definitions, '*' ∉ kv.2) → evalSafe definitions fuel p = true) ∧
    (∀ fuel : Nat,
        evalSafe [] fuel ("a*x".toList) = true ∧
        evalSafe [] fuel ("a*2".toList) = true ∧
        evalSafe [] fuel ("a(b".toList) = true ∧
        evalSafe [] fuel ("{missing}".toList) = true) ∧
    (∀ (g : Nat → Nat) (fuel k : Nat),
        evaluate_pattern g [] (fuel + 1) ("a(b".toList) k = .ok ("a(b".toList, k + 1) ∧
        '(' ∈ ("a(b".toList)) := by
  refine ⟨?_, ?_, ?_, ?_⟩
  · intro g fuel mp dl count hsafe
    unfold generate_words
    exact genLoop_ne_emptyPool
      (fun k2 => evaluate_pattern_safe_ne_emptyPool fuel _ k2 hsafe) _ _ _
  · intro definitions fuel p hp hdefs
    exact evalSafe_of_no_star hdefs fuel p hp
  · intro fuel
    cases fuel with
    | zero => exact ⟨rfl, rfl, rfl, rfl⟩
    | succ fuel => exact ⟨rfl, rfl, rfl, rfl⟩
  · intro g fuel k
    refine ⟨?_, by decide⟩
    rw [evaluate_pattern_step
      (show split_by_top_level_slash ("a(b".toList) = ["a(b".toList] from rfl)
      (by decide)
      (show _ = ["a(b".toList] from rfl)
      (by decide)]
    have hmod : g k % ([("a(b".toList)] : List (List Char)).length = 0 := by
      simp [Nat.mod_one]
    rw [hmod]
    exact seqGo_aLb _ _ _ _ 0

/-- C3 counterexample: the claim asserts no exception for ANY pattern
content, but the all-zero-weight pattern a*0 produces an empty selection
pool and random.choice([]) raises IndexError (modelled as
GenErr.emptyPool), even with no self-referential definitions and a
positive count. -/
theorem generate_words_empty_pool_counterexample :
    generate_words (fun _ => 0) 5 ("a*0".toList) [] 1 = .error .emptyPool := rfl

/-- Witness for C3: a concrete call whose pattern carries a non-numeric
weight suffix is exception-free. -/
theorem generate_words_no_exception_witness :
    generate_words (fun _ => 0) 3 ("a*x".toList) [] 1 ≠ .error .emptyPool :=
  generate_words_no_exception.1 (fun _ => 0) 3 ("a*x".toList) [] 1 (by decide)

/-! ### Claim C1 -/

/-- C1 (confirmed): a successful generate_words call returns pairwise
distinct words none of which contains any filter substring (the segments
after the first of the main pattern split on the caret), and the list is
an in-order left fold of the accept-if-new-and-unfiltered step over the
sequence of candidate words in generation order, so words appear in the
order they were generated. -/
theorem generate_words_result_invariant :
    ∀ (g : Nat → Nat) (fuel : Nat) (mainPattern : List Char)
      (definitionsList : List Defs) (count : Nat), 0 < count →
      ∀ ws, generate_words g fuel mainPattern definitionsList count = .ok ws →
        ws.Nodup ∧ (∀ w ∈ ws, ∀ f ∈ filtersOf mainPattern, ¬ f <:+: w) ∧
        ∃ cands : List (List Char),
          ws = cands.foldl (acceptStep (filtersOf mainPattern)) [] := by
  intro g fuel mp dl count _ ws h
  unfold generate_words at h
  obtain ⟨cands, _, hws⟩ := genLoop_trace _ _ _ _ h
  subst hws
  exact ⟨foldl_acceptStep_nodup cands [] List.nodup_nil,
    foldl_acceptStep_filters cands [] (by simp), cands, rfl⟩

/-- Witness for C1: a concrete filtered run returns a duplicate-free list. -/
theorem generate_words_result_invariant_witness :
    (["a".toList] : List (List Char)).Nodup :=
  (generate_words_result_invariant (fun _ => 0) 2 ("a^b".toList) [] 1 (by decide)
    ["a".toList] rfl).1

/-! ### Claim C2 -/

/-- C2 (confirmed): the generation loop of generate_words performs at most
count * 10 + 100 attempts (the candidate trace of a successful run is no
longer than that bound, which is what guarantees termination however
restrictive the filters are), and the returned list never exceeds count
words; returning fewer than count is an ordinary successful outcome. -/
theorem generate_words_attempt_bound :
    ∀ (g : Nat → Nat) (fuel : Nat) (mainPattern : List Char)
      (definitionsList : List Defs) (count : Nat), 0 < count →
      ∀ ws, generate_words g fuel mainPattern definitionsList count = .ok ws →
        ws.length ≤ count ∧
        ∃ cands : List (List Char), cands.length ≤ count * 10 + 100 ∧
          ws = cands.foldl (acceptStep (filtersOf mainPattern)) [] := by
  intro g fuel mp dl count _ ws h
  unfold generate_words at h
  refine ⟨genLoop_length_le _ _ _ _ (by simp) h, ?_⟩
  obtain ⟨cands, hlen, hws⟩ := genLoop_trace _ _ _ _ h
  exact ⟨cands, hlen, hws⟩

/-- Witness for C2: a concrete run stays within the bound and count. -/
theorem generate_words_attempt_bound_witness :
    (["b".toList] : List (List Char)).length ≤ 1 :=
  (generate_words_attempt_bound (fun _ => 0) 2 ("b".toList) [] 1 (by decide)
    ["b".toList] rfl).1

/-! ### Claim C7 -/

/-- C7 (corrected): a pattern containing none of the eight grammar
characters (the six brackets, the choice slash, and the weight asterisk)
is returned verbatim by evaluate_pattern, for every random stream, every
definition table and every draw position; one draw (the branch choice) is
consumed.  The claim as stated, which excludes only the six bracket
characters, is false because a bracket-free pattern may still contain a
top-level choice or a weight suffix. -/
theorem evaluate_pattern_identity :
    ∀ (g : Nat → Nat) (definitions : Defs) (fuel k : Nat) (s : List Char),
      (∀ c ∈ s, c ∉ ['{', '}', '[', ']', '(', ')', '/', '*']) →
      evaluate_pattern g definitions (fuel + 1) s k = .ok (s, k + 1) := by
  intro g definitions fuel k s hs
  have hslash : '/' ∉ s := fun h => by have := hs _ h; simp at this
  have hstar : '*' ∉ s := fun h => by have := hs _ h; simp at this
  have hsplit : split_by_top_level_slash s = [s] := split_no_slash hslash
  have hw : ([s] : List (List Char)).foldl (fun acc opt =>
      let bw := parse_weight opt
      acc ++ List.replicate bw.2.toNat bw.1) [] = [s] := by
    have := weighted_pool_of_all_one [s] []
      (fun o ho => by
        rw [List.mem_singleton] at ho
        exact ho ▸ parse_weight_of_not_mem hstar)
    simpa using this
  rw [evaluate_pattern_step hsplit (by simp) hw (by simp)]
  have hmod : g k % ([s] : List (List Char)).length = 0 := by
    simp [Nat.mod_one]
  rw [hmod]
  have hget : ([s] : List (List Char)).getD 0 [] = s := rfl
  rw [hget]
  refine seqGo_all_literal ?_ (s.length + 1) 0 (k + 1) (by omega)
  intro c hcs
  have := hs c hcs
  simp only [List.mem_cons, List.mem_singleton] at this
  push_neg at this
  exact ⟨this.1, this.2.2.1, this.2.2.2.2.1⟩

/-- C7 counterexample: the bracket-free pattern a/b is not returned
verbatim; with a draw selecting the second branch the result is b. -/
theorem evaluate_pattern_identity_counterexample :
    evaluate_pattern (fun _ => 1) [] 2 ("a/b".toList) 0 = .ok ("b".toList, 1) ∧
    ("b".toList : List Char) ≠ "a/b".toList :=
  ⟨rfl, by decide⟩

/-- Witness for C7: a plain literal pattern is returned verbatim. -/
theorem evaluate_pattern_identity_witness :
    evaluate_pattern (fun _ => 0) [] 1 ("xy".toList) 0 = .ok ("xy".toList, 1) :=
  evaluate_pattern_identity (fun _ => 0) [] 0 0 ("xy".toList) (by decide)

/-! ### Claim C4 -/

/-- C4 (corrected): parse_weight finds the last asterisk; with no asterisk
it returns (branch, 1); if the suffix after the last asterisk parses under
Python int() semantics (optional surrounding whitespace, an optional ASCII
sign - so the value may be negative - and decimal digits of any script,
i.e. Unicode category Nd, each contributing its decimal value, with single
underscore separators between digits) it returns (prefix, parsed value);
otherwise, including the empty suffix of a trailing asterisk, it returns
(the original branch, 1). -/
theorem parse_weight_contract :
    (∀ s : List Char, '*' ∉ s → parse_weight s = (s, 1)) ∧
    (∀ (a b : List Char) (n : Int), '*' ∉ b → pyIntOfString b = some n →
      parse_weight (a ++ '*' :: b) = (a, n)) ∧
    (∀ (a b : List Char), '*' ∉ b → pyIntOfString b = none →
      parse_weight (a ++ '*' :: b) = (a ++ '*' :: b, 1)) := by
  refine ⟨?_, ?_, ?_⟩
  · intro s hs
    simp [parse_weight, pyRFind_eq_none hs]
  · intro a b n hb hparse
    have hbne : b ≠ [] := by
      intro he
      rw [he, pyIntOfString_nil] at hparse
      exact Option.noConfusion hparse
    simp [parse_weight, pyRFind_append_cons hb, drop_append_cons_length,
      take_append_cons_length, hparse, hbne]
  · intro a b hb hparse
    by_cases hbne : b = []
    · subst hbne
      simp [parse_weight, pyRFind_append_cons hb, drop_append_cons_length]
    · simp [parse_weight, pyRFind_append_cons hb, drop_append_cons_length,
        hparse, hbne]

/-- C4 counterexample: the claim requires the suffix to parse as a
NON-NEGATIVE integer and otherwise demands (original branch, 1); but
Python int() accepts a sign, so on branch a*-2 the code returns the
prefix with weight -2 instead of (a*-2, 1). -/
theorem parse_weight_negative_counterexample :
    parse_weight ("a*-2".toList) = ("a".toList, -2) ∧
    parse_weight ("a*-2".toList) ≠ ("a*-2".toList, 1) := by decide

/-- Witness for C4: a positive weight suffix is split off as claimed. -/
theorem parse_weight_contract_witness :
    parse_weight ("ab".toList ++ '*' :: "3".toList) = ("ab".toList, 3) :=
  parse_weight_contract.2.1 ("ab".toList) ("3".toList) 3 (by decide) (by decide)

/-! ### Helper lemmas: the {C}{V} example -/

theorem cv_eval_C :
    ∀ (fuel : Nat) (g : Nat → Nat) (k : Nat) (w : List Char) (k2 : Nat),
      evaluate_pattern g cvDefs fuel ("p/t/k".toList) k = .ok (w, k2) →
      w = "p".toList ∨ w = "t".toList ∨ w = "k".toList := by
  intro fuel g k w k2 h
  cases fuel with
  | zero => exact absurd h (by simp [evaluate_pattern])
  | succ fuel =>
    rw [evaluate_pattern_step
      (show split_by_top_level_slash ("p/t/k".toList) =
        ["p".toList, "t".toList, "k".toList] from rfl)
      (by decide)
      (show _ = ["p".toList, "t".toList, "k".toList] from rfl)
      (by decide)] at h
    rw [show (["p".toList, "t".toList, "k".toList] : List (List Char)).length = 3
      from rfl] at h
    have h3 : g k % 3 = 0 ∨ g k % 3 = 1 ∨ g k % 3 = 2 := by omega
    rcases h3 with h3 | h3 | h3 <;> rw [h3] at h
    · rw [show (["p".toList, "t".toList, "k".toList] : List (List Char)).getD 0 [] =
        "p".toList from rfl] at h
      rw [seqGo_all_literal (s := "p".toList) (by decide) _ 0 (k + 1) (by omega)] at h
      simp only [List.drop_zero, Except.ok.injEq, Prod.mk.injEq] at h
      exact Or.inl h.1.symm
    · rw [show (["p".toList, "t".toList, "k".toList] : List (List Char)).getD 1 [] =
        "t".toList from rfl] at h
      rw [seqGo_all_literal (s := "t".toList) (by decide) _ 0 (k + 1) (by omega)] at h
      simp only [List.drop_zero, Except.ok.injEq, Prod.mk.injEq] at h
      exact Or.inr (Or.inl h.1.symm)
    · rw [show (["p".toList, "t".toList, "k".toList] : List (List Char)).getD 2 [] =
        "k".toList from rfl] at h
      rw [seqGo_all_literal (s := "k".toList) (by decide) _ 0 (k + 1) (by omega)] at h
      simp only [List.drop_zero, Except.ok.injEq, Prod.mk.injEq] at h
      exact Or.inr (Or.inr h.1.symm)

theorem cv_eval_V :
    ∀ (fuel : Nat) (g : Nat → Nat) (k : Nat) (w : List Char) (k2 : Nat),
      evaluate_pattern g cvDefs fuel ("a/i".toList) k = .ok (w, k2) →
      w = "a".toList ∨ w = "i".toList := by
  intro fuel g k w k2 h
  cases fuel with
  | zero => exact absurd h (by simp [evaluate_pattern])
  | succ fuel =>
    rw [evaluate_pattern_step
      (show split_by_top_level_slash ("a/i".toList) = ["a".toList, "i".toList] from rfl)
      (by decide)
      (show _ = ["a".toList, "i".toList] from rfl)
      (by decide)] at h
    rw [show (["a".toList, "i".toList] : List (List Char)).length = 2 from rfl] at h
    have h2 : g k % 2 = 0 ∨ g k % 2 = 1 := by omega
    rcases h2 with h2 | h2 <;> rw [h2] at h
    · rw [show (["a".toList, "i".toList] : List (List Char)).getD 0 [] = "a".toList
        from rfl] at h
      rw [seqGo_all_literal (s := "a".toList) (by decide) _ 0 (k + 1) (by omega)] at h
      simp only [List.drop_zero, Except.ok.injEq, Prod.mk.injEq] at h
      exact Or.inl h.1.symm
    · rw [show (["a".toList, "i".toList] : List (List Char)).getD 1 [] = "i".toList
        from rfl] at h
      rw [seqGo_all_literal (s := "i".toList) (by decide) _ 0 (k + 1) (by omega)] at h
      simp only [List.drop_zero, Except.ok.injEq, Prod.mk.injEq] at h
      exact Or.inr h.1.symm

theorem cv_eval_word :
    ∀ (fuel : Nat) (g : Nat → Nat) (k : Nat) (w : List Char) (k2 : Nat),
      evaluate_pattern g cvDefs fuel ("{C}{V}".toList) k = .ok (w, k2) →
      w ∈ sixWordsCV := by
  intro fuel g k w k2 h
  cases fuel with
  | zero => exact absurd h (by simp [evaluate_pattern])
  | succ fuel =>
    rw [evaluate_pattern_step
      (show split_by_top_level_slash ("{C}{V}".toList) = ["{C}{V}".toList] from rfl)
      (by decide)
      (show _ = ["{C}{V}".toList] from rfl)
      (by decide)] at h
    rw [show (["{C}{V}".toList] : List (List Char)).length = 1 from rfl,
      Nat.mod_one] at h
    rw [show (["{C}{V}".toList] : List (List Char)).getD 0 [] = "{C}{V}".toList
      from rfl] at h
    rw [seqGo_ref_some (show ("{C}{V}".toList)[0]? = some '{' from rfl)
      (show find_matching_bracket ("{C}{V}".toList) 0 = 2 from rfl) (by decide)
      (show lookupDef cvDefs (listSlice ("{C}{V}".toList) (0 + 1) (2 : Int).toNat) =
        some ("p/t/k".toList) from rfl)] at h
    rcases except_bind_ok_iff.1 h with ⟨vk, hC, h2⟩
    obtain ⟨v, k3⟩ := vk
    have hv := cv_eval_C fuel g (k + 1) v k3 hC
    rcases except_map_ok_iff.1 h2 with ⟨rk, hseq, hval⟩
    obtain ⟨r, k4⟩ := rk
    rw [show ((2 : Int).toNat + 1) = 3 from rfl,
      show ("{C}{V}".toList).length = 5 + 1 from rfl] at hseq
    rw [seqGo_ref_some (show ("{C}{V}".toList)[3]? = some '{' from rfl)
      (show find_matching_bracket ("{C}{V}".toList) 3 = 5 from rfl) (by decide)
      (show lookupDef cvDefs (listSlice ("{C}{V}".toList) (3 + 1) (5 : Int).toNat) =
        some ("a/i".toList) from rfl)] at hseq
    rcases except_bind_ok_iff.1 hseq with ⟨vk2, hV, h3⟩
    obtain ⟨v2, k5⟩ := vk2
    have hv2 := cv_eval_V fuel g k3 v2 k5 hV
    rcases except_map_ok_iff.1 h3 with ⟨rk2, hend, hval2⟩
    obtain ⟨r2, k6⟩ := rk2
    rw [show ((5 : Int).toNat + 1) = 6 from rfl,
      show (5 : Nat) = 4 + 1 from rfl] at hend
    rw [seqGo_end (show ("{C}{V}".toList)[6]? = none from rfl)] at hend
    simp only [Except.ok.injEq, Prod.mk.injEq] at hend
    simp only [Prod.mk.injEq] at hval hval2
    obtain ⟨hr2, _⟩ := hend
    obtain ⟨hw, _⟩ := hval
    obtain ⟨hr, _⟩ := hval2
    subst hw
    subst hr
    subst hr2
    rcases hv with rfl | rfl | rfl <;> rcases hv2 with rfl | rfl <;> decide

theorem genLoop_cv {g : Nat → Nat} {fuel count : Nat} :
    ∀ (rem : Nat) (acc : List (List Char)) (k : Nat) (ws : List (List Char)),
      (∀ w ∈ acc, w ∈ sixWordsCV) →
      genLoop g fuel cvDefs ("{C}{V}".toList) [] count rem acc k = .ok ws →
      ∀ w ∈ ws, w ∈ sixWordsCV
  | 0, acc, k, ws, hacc, h => by
    rw [genLoop_zero] at h
    injection h with h
    exact h ▸ hacc
  | rem + 1, acc, k, ws, hacc, h => by
    by_cases hlt : acc.length < count
    · cases hev : evaluate_pattern g cvDefs fuel ("{C}{V}".toList) k with
      | error e =>
        rw [genLoop_step_error hlt hev] at h
        exact absurd h (by simp)
      | ok wk =>
        obtain ⟨word, k1⟩ := wk
        rw [genLoop_step hlt hev] at h
        refine genLoop_cv rem _ k1 ws ?_ h
        intro w hw
        rcases acceptStep_cases [] acc word with he | ⟨_, _, he⟩ <;> rw [he] at hw
        · exact hacc w hw
        · rcases List.mem_append.1 hw with hw | hw
          · exact hacc w hw
          · rw [List.mem_singleton] at hw
            exact hw ▸ cv_eval_word fuel g k word k1 hev
    · rw [genLoop_stop hlt] at h
      injection h with h
      exact h ▸ hacc

/-! ### Claim C8 -/

/-- C8 (confirmed): for the main pattern {C}{V} with definitions
C = p/t/k and V = a/i, every word of a successful generate_words result
is one of pa, pi, ta, ti, ka, ki, for every count and every random
stream. -/
theorem generate_words_cv_membership :
    ∀ (g : Nat → Nat) (fuel count : Nat) (ws : List (List Char)),
      generate_words g fuel ("{C}{V}".toList) cvDefsList count = .ok ws →
      ∀ w ∈ ws, w ∈ sixWordsCV := by
  intro g fuel count ws h
  unfold generate_words at h
  rw [show mergeDefs cvDefsList = cvDefs from rfl,
    show basePatternOf ("{C}{V}".toList) = "{C}{V}".toList from rfl,
    show filtersOf ("{C}{V}".toList) = [] from rfl] at h
  exact genLoop_cv _ _ _ _ (by simp) h

/-- Witness for C8: a concrete run yields pa, which is among the six. -/
theorem generate_words_cv_membership_witness :
    ("pa".toList : List Char) ∈ sixWordsCV :=
  generate_words_cv_membership (fun _ => 0) 3 1 ["pa".toList] rfl ("pa".toList)
    (by decide)

end Kozuka
